import Mathlib

/-!
# Verification of the Dr. Donut cart-normalization engine

A shallow embedding of the cart-normalization engine (`cart_engine.py`),
its menu catalog (`menu_data.py`) and the decisive part of its evaluation
harness (`evaluate.py`), together with proofs and refutations of the
specified properties.

Modelling conventions:
* Python strings are modelled as `List Char`; all scanning functions work
  directly on character lists.  `str.isdigit`, `\w` and `\s` are modelled
  at the ASCII level, which covers every character occurring in the menu
  catalogs and in the normalized texts the engine scans.
* Python `float` monetary values are modelled as exact rationals `ℚ`;
  every literal in the catalog is an exact two-decimal value.
* Python `int` is modelled as `ℤ`.
* Python `dict` (insertion-ordered, last assignment wins but keeps the
  original key position) is modelled as an association list with the
  update-in-place/append `dictInsert` below.
* Python's stable `sort`/`sorted` is modelled by the stable insertion
  sort `sortBy` below (each element is inserted after existing elements
  whose key is `≤` its own, and elements are taken left to right, which
  is exactly the stable order).
* `re`'s word boundary `\b` is modelled for patterns that begin and end
  with word characters — true of every alias, size synonym and
  correction marker in this repository — as "the neighbouring character,
  if any, is not a word character".
-/

/-! ## Character and string primitives -/

/-- ASCII model of Python's regex class `\w` (`[a-zA-Z0-9_]`). -/
def isWordCharB (c : Char) : Bool := c.isAlphanum || c = '_'

/-- ASCII model of Python's whitespace class used by `str.split` and `\s`. -/
def isWsB (c : Char) : Bool :=
  c = ' ' || c = '\t' || c = '\n' || c = '\r' || c = Char.ofNat 11 || c = Char.ofNat 12

/-- ASCII decimal digit, the model of `str.isdigit` on the texts scanned here. -/
def isDigitB (c : Char) : Bool := '0' ≤ c && c ≤ '9'

/-- Lowercased character data of a string (`str.lower`). -/
def lowData (s : String) : List Char := s.data.map Char.toLower

/-- Does `pat` occur at the head of `s` (exact character match)? -/
def isPrefixCL : List Char → List Char → Bool
  | [], _ => true
  | _ :: _, [] => false
  | p :: ps, c :: cs => p == c && isPrefixCL ps cs

/-- Python's substring containment `pat in s`. -/
def isSubstr (pat : List Char) : List Char → Bool
  | [] => isPrefixCL pat []
  | s@(_ :: rest) => isPrefixCL pat s || isSubstr pat rest

/-- Python's `s.find(pat)`: index of the first occurrence, if any. -/
def firstIndexOf (pat : List Char) : List Char → Option Nat
  | [] => if isPrefixCL pat [] then some 0 else none
  | s@(_ :: rest) =>
    if isPrefixCL pat s then some 0
    else (firstIndexOf pat rest).map (· + 1)

/-- Whitespace split (`str.split()` with no separator): splits on runs of
whitespace and never yields an empty word.  `cur` is the reversed current
word. -/
def splitWsAux : List Char → List Char → List (List Char)
  | [], cur => if cur.isEmpty then [] else [cur.reverse]
  | c :: rest, cur =>
    if isWsB c then
      if cur.isEmpty then splitWsAux rest [] else cur.reverse :: splitWsAux rest []
    else splitWsAux rest (c :: cur)

/-- `str.split()` on whitespace. -/
def splitWs (s : List Char) : List (List Char) := splitWsAux s []

/-! ## Generic stable insertion sort (the model of Python's stable `sorted`) -/

/-- Insert `x` after every element `y` with `le y x` — the position a
stable sort gives an element arriving after the elements already placed. -/
def insBy {α : Type} (le : α → α → Bool) (x : α) : List α → List α
  | [] => [x]
  | y :: ys => if le y x then y :: insBy le x ys else x :: y :: ys

/-- Stable sort: fold the list left to right through `insBy`. -/
def sortBy {α : Type} (le : α → α → Bool) (l : List α) : List α :=
  l.foldl (fun acc x => insBy le x acc) []

/-! ## Python dict as an association list -/

/-- Python dict assignment `m[k] = v`: overwrite in place if the key is
present (keeping its position), else append. -/
def dictInsert {V : Type} (m : List (List Char × V)) (k : List Char) (v : V) :
    List (List Char × V) :=
  if m.any (fun kv => kv.1 == k) then
    m.map (fun kv => if kv.1 == k then (kv.1, v) else kv)
  else m ++ [(k, v)]

/-! ## Data model (`menu_data.py`, `cart_engine.py`) -/

/-- `menu_data.MenuItem`. -/
structure MenuItem where
  sku : String
  name : String
  category : String
  price : ℚ
  base_price : ℚ
  aliases : List String
  size_variations : List (String × ℚ)
  modifiers : List String
  modifier_synonyms : List (String × String)
deriving DecidableEq, Repr

/-- `menu_data.Menu`. -/
structure Menu where
  name : String
  items : List MenuItem
  size_synonyms : List (String × String)
  default_sizes : List (String × String)
deriving DecidableEq, Repr

/-- `cart_engine.CartItem`. -/
structure CartItem where
  sku : String
  name : String
  quantity : ℤ
  size : Option String
  modifiers : List String
  price : ℚ
deriving DecidableEq, Repr

/-- `cart_engine.Cart`: item list plus running total. -/
structure Cart where
  items : List CartItem
  total : ℚ
deriving DecidableEq, Repr

/-- One whole-word alias occurrence found by `_find_all_items`:
`(match.start(), match.end(), alias, item)`. -/
structure Mention where
  startPos : Nat
  endPos : Nat
  aliasStr : List Char
  item : MenuItem
deriving DecidableEq, Repr

/-! ## The menu catalog (`menu_data.py`) -/

/-- `menu_data.SMALL_MENU`. -/
def SMALL_MENU : Menu :=
  { name := "Small Menu"
    items :=
      [ { sku := "DON001", name := "Pumpkin Spice Iced Doughnut", category := "donuts"
          price := 1.29, base_price := 1.29
          aliases := ["pumpkin spice donut", "pumpkin donut", "ps donut", "pumpkin iced"]
          size_variations := [], modifiers := [], modifier_synonyms := [] }
      , { sku := "DON002", name := "Chocolate Iced Doughnut", category := "donuts"
          price := 1.09, base_price := 1.09
          aliases := ["chocolate donut", "choc donut", "chocolate glazed"]
          size_variations := [], modifiers := ["sprinkles"]
          modifier_synonyms := [("with sprinkles", "sprinkles"), ("sprinkled", "sprinkles")] }
      , { sku := "DON003", name := "Raspberry Filled Doughnut", category := "donuts"
          price := 1.09, base_price := 1.09
          aliases := ["raspberry donut", "raspberry filled", "rasp filled"]
          size_variations := [], modifiers := [], modifier_synonyms := [] }
      , { sku := "COF001", name := "Regular Brewed Coffee", category := "coffee"
          price := 1.79, base_price := 1.79
          aliases := ["coffee", "regular coffee", "brewed coffee", "black coffee"]
          size_variations := [("small", 0.0), ("medium", 0.3), ("large", 0.6)]
          modifiers := ["cream", "sugar", "milk"]
          modifier_synonyms := [("with cream", "cream"), ("creamer", "cream"), ("sweet", "sugar")] }
      , { sku := "COF002", name := "Pumpkin Spice Latte", category := "coffee"
          price := 4.59, base_price := 4.59
          aliases := ["pumpkin spice latte", "psl", "pumpkin latte", "ps latte"]
          size_variations := [("small", 0.0), ("medium", 0.5), ("large", 1.0)]
          modifiers := ["extra shot", "whip", "no whip", "almond milk", "oat milk"]
          modifier_synonyms := [("whipped cream", "whip"), ("no whipped cream", "no whip")] } ]
    size_synonyms :=
      [ ("small", "small"), ("s", "small"), ("sm", "small"), ("regular", "small")
      , ("medium", "medium"), ("m", "medium"), ("med", "medium")
      , ("large", "large"), ("l", "large"), ("lg", "large"), ("big", "large") ]
    default_sizes := [("donuts", "regular"), ("coffee", "medium")] }

/-- `menu_data.LARGE_MENU`. -/
def LARGE_MENU : Menu :=
  { name := "Large Menu"
    items :=
      [ { sku := "DON001", name := "Pumpkin Spice Iced Doughnut", category := "donuts"
          price := 1.29, base_price := 1.29
          aliases := ["pumpkin spice donut", "pumpkin donut", "ps donut", "pumpkin iced",
                      "pumpkin spice", "pumpkin glazed", "ps iced"]
          size_variations := [], modifiers := [], modifier_synonyms := [] }
      , { sku := "DON002", name := "Pumpkin Spice Cake Doughnut", category := "donuts"
          price := 1.29, base_price := 1.29
          aliases := ["pumpkin cake donut", "pumpkin cake", "ps cake", "pumpkin spice cake",
                      "cake donut pumpkin"]
          size_variations := [], modifiers := [], modifier_synonyms := [] }
      , { sku := "DON003", name := "Old Fashioned Doughnut", category := "donuts"
          price := 1.29, base_price := 1.29
          aliases := ["old fashioned", "old fashioned donut", "old fashioned doughnut",
                      "old fashion", "plain cake donut"]
          size_variations := [], modifiers := [], modifier_synonyms := [] }
      , { sku := "DON004", name := "Chocolate Iced Doughnut", category := "donuts"
          price := 1.09, base_price := 1.09
          aliases := ["chocolate donut", "choc donut", "chocolate glazed", "chocolate iced",
                      "choc iced", "chocolate", "choc"]
          size_variations := [], modifiers := ["sprinkles"]
          modifier_synonyms := [("with sprinkles", "sprinkles"), ("sprinkled", "sprinkles"),
                                ("rainbow sprinkles", "sprinkles"), ("colored sprinkles", "sprinkles")] }
      , { sku := "DON005", name := "Raspberry Filled Doughnut", category := "donuts"
          price := 1.09, base_price := 1.09
          aliases := ["raspberry donut", "raspberry filled", "rasp filled", "raspberry jelly",
                      "raspberry jam", "rasp", "raspberry"]
          size_variations := [], modifiers := [], modifier_synonyms := [] }
      , { sku := "DON006", name := "Blueberry Cake Doughnut", category := "donuts"
          price := 1.09, base_price := 1.09
          aliases := ["blueberry donut", "blueberry cake", "blueberry", "blueberry cake donut"]
          size_variations := [], modifiers := [], modifier_synonyms := [] }
      , { sku := "DON007", name := "Strawberry Iced Doughnut with Sprinkles", category := "donuts"
          price := 1.09, base_price := 1.09
          aliases := ["strawberry donut", "strawberry iced", "strawberry glazed", "strawberry",
                      "strawberry with sprinkles", "strawberry sprinkled"]
          size_variations := [], modifiers := ["sprinkles"]
          modifier_synonyms := [("with sprinkles", "sprinkles"), ("sprinkled", "sprinkles")] }
      , { sku := "DON008", name := "Lemon Filled Doughnut", category := "donuts"
          price := 1.09, base_price := 1.09
          aliases := ["lemon donut", "lemon filled", "lemon jelly", "lemon jam", "lemon"]
          size_variations := [], modifiers := [], modifier_synonyms := [] }
      , { sku := "DON009", name := "Doughnut Holes", category := "donuts"
          price := 3.99, base_price := 3.99
          aliases := ["donut holes", "donut holes dozen", "holes", "munchkins", "donut munchkins"]
          size_variations := [], modifiers := [], modifier_synonyms := [] }
      , { sku := "COF001", name := "Pumpkin Spice Coffee", category := "coffee"
          price := 2.59, base_price := 2.59
          aliases := ["pumpkin spice coffee", "ps coffee", "pumpkin coffee", "pumpkin brew"]
          size_variations := [("small", 0.0), ("medium", 0.3), ("large", 0.6)]
          modifiers := ["cream", "sugar", "milk", "extra shot"]
          modifier_synonyms := [("with cream", "cream"), ("creamer", "cream"), ("sweet", "sugar")] }
      , { sku := "COF002", name := "Pumpkin Spice Latte", category := "coffee"
          price := 4.59, base_price := 4.59
          aliases := ["pumpkin spice latte", "psl", "pumpkin latte", "ps latte", "pumpkin spice latte"]
          size_variations := [("small", 0.0), ("medium", 0.5), ("large", 1.0)]
          modifiers := ["extra shot", "whip", "no whip", "almond milk", "oat milk"]
          modifier_synonyms := [("whipped cream", "whip"), ("no whipped cream", "no whip")] }
      , { sku := "COF003", name := "Regular Brewed Coffee", category := "coffee"
          price := 1.79, base_price := 1.79
          aliases := ["coffee", "regular coffee", "brewed coffee", "black coffee", "regular",
                      "house coffee", "drip coffee"]
          size_variations := [("small", 0.0), ("medium", 0.3), ("large", 0.6)]
          modifiers := ["cream", "sugar", "milk"]
          modifier_synonyms := [("with cream", "cream"), ("creamer", "cream"), ("sweet", "sugar")] }
      , { sku := "COF004", name := "Decaf Brewed Coffee", category := "coffee"
          price := 1.79, base_price := 1.79
          aliases := ["decaf", "decaf coffee", "decaffeinated", "decaf brewed"]
          size_variations := [("small", 0.0), ("medium", 0.3), ("large", 0.6)]
          modifiers := ["cream", "sugar", "milk"]
          modifier_synonyms := [("with cream", "cream"), ("creamer", "cream"), ("sweet", "sugar")] }
      , { sku := "COF005", name := "Latte", category := "coffee"
          price := 3.49, base_price := 3.49
          aliases := ["latte", "cafe latte", "coffee latte"]
          size_variations := [("small", 0.0), ("medium", 0.4), ("large", 0.8)]
          modifiers := ["extra shot", "decaf", "almond milk", "oat milk", "skim milk", "whole milk"]
          modifier_synonyms := [("almond", "almond milk"), ("oat", "oat milk"), ("skim", "skim milk")] }
      , { sku := "COF006", name := "Cappuccino", category := "coffee"
          price := 3.49, base_price := 3.49
          aliases := ["cappuccino", "capp", "cappucino"]
          size_variations := [("small", 0.0), ("medium", 0.4), ("large", 0.8)]
          modifiers := ["extra shot", "decaf", "almond milk", "oat milk", "skim milk"]
          modifier_synonyms := [("almond", "almond milk"), ("oat", "oat milk"), ("skim", "skim milk")] }
      , { sku := "COF007", name := "Caramel Macchiato", category := "coffee"
          price := 3.49, base_price := 3.49
          aliases := ["caramel macchiato", "caramel mac", "caramel mach", "macchiato"]
          size_variations := [("small", 0.0), ("medium", 0.4), ("large", 0.8)]
          modifiers := ["extra shot", "decaf", "almond milk", "oat milk", "extra caramel"]
          modifier_synonyms := [("almond", "almond milk"), ("oat", "oat milk")] }
      , { sku := "COF008", name := "Mocha Latte", category := "coffee"
          price := 3.49, base_price := 3.49
          aliases := ["mocha", "mocha latte", "chocolate latte", "choc latte"]
          size_variations := [("small", 0.0), ("medium", 0.4), ("large", 0.8)]
          modifiers := ["extra shot", "decaf", "almond milk", "oat milk", "whip", "no whip"]
          modifier_synonyms := [("almond", "almond milk"), ("oat", "oat milk"), ("whipped cream", "whip")] }
      , { sku := "COF009", name := "Caramel Mocha Latte", category := "coffee"
          price := 3.49, base_price := 3.49
          aliases := ["caramel mocha", "caramel mocha latte", "caramel choc latte"]
          size_variations := [("small", 0.0), ("medium", 0.4), ("large", 0.8)]
          modifiers := ["extra shot", "decaf", "almond milk", "oat milk", "whip", "no whip"]
          modifier_synonyms := [("almond", "almond milk"), ("oat", "oat milk"), ("whipped cream", "whip")] } ]
    size_synonyms :=
      [ ("small", "small"), ("s", "small"), ("sm", "small"), ("regular", "small"), ("short", "small")
      , ("medium", "medium"), ("m", "medium"), ("med", "medium"), ("grande", "medium")
      , ("large", "large"), ("l", "large"), ("lg", "large"), ("big", "large"), ("venti", "large")
      , ("extra large", "large"), ("xl", "large"), ("x-large", "large") ]
    default_sizes := [("donuts", "regular"), ("coffee", "medium")] }

/-! ## Lexicographic comparison used by Python's `sorted` keys -/

/-- Case-sensitive lexicographic comparison of character lists by code
point, the order Python uses on strings. -/
def cmpCL : List Char → List Char → Ordering
  | [], [] => .eq
  | [], _ :: _ => .lt
  | _ :: _, [] => .gt
  | a :: as_, b :: bs =>
    if a = b then cmpCL as_ bs
    else if a < b then .lt else .gt

/-- Python string comparison. -/
def cmpStr (s t : String) : Ordering := cmpCL s.data t.data

/-- Comparison of optional strings with `none` first; Python instead
raises `TypeError` when it actually compares `None` with a `str`, so this
order is only appealed to where both operands have the same shape. -/
def cmpOptStr : Option String → Option String → Ordering
  | none, none => .eq
  | none, some _ => .lt
  | some _, none => .gt
  | some s, some t => cmpStr s t

/-- Python tuple-of-strings comparison (lexicographic). -/
def cmpListStr : List String → List String → Ordering
  | [], [] => .eq
  | [], _ :: _ => .lt
  | _ :: _, [] => .gt
  | s :: ss, t :: ts =>
    match cmpStr s t with
    | .eq => cmpListStr ss ts
    | o => o

/-- The sort key `(x.sku, x.size, tuple(x.modifiers))` used by
`CartEvaluator.exact_match`. -/
def sortKey (it : CartItem) : String × Option String × List String :=
  (it.sku, it.size, it.modifiers)

/-- Comparison of `exact_match` sort keys (Python tuple comparison). -/
def cmpKey (k₁ k₂ : String × Option String × List String) : Ordering :=
  match cmpStr k₁.1 k₂.1 with
  | .eq =>
    match cmpOptStr k₁.2.1 k₂.2.1 with
    | .eq => cmpListStr k₁.2.2 k₂.2.2
    | o => o
  | o => o

/-- `≤` on sort keys. -/
def keyLeB (k₁ k₂ : String × Option String × List String) : Bool :=
  match cmpKey k₁ k₂ with
  | .gt => false
  | _ => true

/-- `≤` on strings. -/
def strLeB (s t : String) : Bool :=
  match cmpStr s t with
  | .gt => false
  | _ => true

/-- Python `sorted` on a list of strings. -/
def sortStr (l : List String) : List String := sortBy strLeB l

/-! ## Alias index (`CartNormalizer._build_indexes`) -/

/-- The alias-to-item index: canonical lowercased name first, then every
lowercased alias, item by item; later registrations of the same key
overwrite in place (Python dict semantics). -/
def buildAliasMap (menu : Menu) : List (List Char × MenuItem) :=
  menu.items.foldl
    (fun m item =>
      item.aliases.foldl (fun m a => dictInsert m (lowData a) item)
        (dictInsert m (lowData item.name) item))
    []

/-- The flat modifier-synonym index aggregated over all items. -/
def buildModifierMap (menu : Menu) : List (List Char × String) :=
  menu.items.foldl
    (fun m item =>
      item.modifier_synonyms.foldl (fun m kv => dictInsert m (lowData kv.1) kv.2) m)
    []

/-! ## Text normalization (`normalize_text`, `_handle_corrections`) -/

/-- `normalize_text`: replace every character outside `\w`, `\s`, `-`,
`'` by a space, collapse whitespace runs, lowercase. -/
def normalize_text (t : List Char) : List Char :=
  let t₁ := t.map (fun c =>
    if isWordCharB c || isWsB c || c = '-' || c = Char.ofNat 39 then c else ' ')
  (List.intercalate [' '] (splitWs t₁)).map Char.toLower

/-- Case-insensitive prefix match (pattern already lowercase). -/
def isPrefixCI : List Char → List Char → Bool
  | [], _ => true
  | _ :: _, [] => false
  | p :: ps, c :: cs => p == c.toLower && isPrefixCI ps cs

/-- One pass of `re.sub(r'\b…\b', '', text, flags=IGNORECASE)` with a
nonempty pattern `p₀ :: ps`: scan left to right, delete every
word-bounded case-insensitive occurrence, resume scanning right after a
deleted occurrence.  `prev` is the original character preceding the scan
position, used for the left word boundary. -/
def subDelAux (p₀ : Char) (ps : List Char) : Nat → Option Char → List Char → List Char
  | 0, _, _ => []
  | _ + 1, _, [] => []
  | fuel + 1, prev, c :: rest =>
    if (match prev with | none => true | some pc => !isWordCharB pc)
        && isPrefixCI (p₀ :: ps) (c :: rest)
        && (match (c :: rest).drop (ps.length + 1) with
            | [] => true
            | d :: _ => !isWordCharB d) then
      subDelAux p₀ ps fuel (((c :: rest).take (ps.length + 1)).getLast?)
        ((c :: rest).drop (ps.length + 1))
    else c :: subDelAux p₀ ps fuel (some c) rest

/-- `re.sub` deleting all word-bounded occurrences of `pat`.  The fuel
starts at the text's length; as in `findWWAux` it cannot run out before
the text does. -/
def subDelWord (pat : List Char) (t : List Char) : List Char :=
  match pat with
  | [] => t
  | p :: ps => subDelAux p ps t.length none t

/-- The correction markers stripped by `_handle_corrections`, in order. -/
def correctionPatterns : List (List Char) :=
  ["actually".data, "instead".data, "change".data, "make that".data, "switch".data]

/-- `_handle_corrections`: strip every correction marker, pattern by
pattern. -/
def handle_corrections (t : List Char) : List Char :=
  correctionPatterns.foldl (fun txt pat => subDelWord pat txt) t

/-! ## Whole-word alias occurrence search (`re.finditer(r'\b…\b', text)`) -/

/-- All non-overlapping whole-word occurrences of the nonempty pattern
`a₀ :: arest` in the remaining text, left to right, indices relative to
the original text; after a match the scan resumes at its end
(`re.finditer` semantics).  The first argument is recursion fuel: every
step consumes at least one character of the text, so starting the fuel
at the text's length makes the fuel-exhausted branch unreachable (when
the fuel runs out the text is already empty and the result is `[]`
either way); the fuel only makes the recursion structural. -/
def findWWAux (a₀ : Char) (arest : List Char) :
    Nat → Option Char → Nat → List Char → List (Nat × Nat)
  | 0, _, _, _ => []
  | _ + 1, _, _, [] => []
  | fuel + 1, prev, i, c :: rest =>
    if (match prev with | none => true | some pc => !isWordCharB pc)
        && isPrefixCL (a₀ :: arest) (c :: rest)
        && (match (c :: rest).drop (arest.length + 1) with
            | [] => true
            | d :: _ => !isWordCharB d) then
      (i, i + (arest.length + 1)) ::
        findWWAux a₀ arest fuel (((c :: rest).take (arest.length + 1)).getLast?)
          (i + (arest.length + 1)) ((c :: rest).drop (arest.length + 1))
    else findWWAux a₀ arest fuel (some c) (i + 1) rest

/-- Every whole-word occurrence `(start, end)` of `al` in `text`. -/
def findWholeWord (al : List Char) (text : List Char) : List (Nat × Nat) :=
  match al with
  | [] => []
  | a :: arest => findWWAux a arest text.length none 0 text

/-! ## Mention detection and overlap resolution (`_find_all_items`) -/

/-- All raw mentions: for every `(alias, item)` pair of the index in
order, every whole-word occurrence of the alias in the text. -/
def rawMentions (amap : List (List Char × MenuItem)) (text : List Char) : List Mention :=
  amap.foldl
    (fun acc kv =>
      acc ++ (findWholeWord kv.1 text).map (fun se => ⟨se.1, se.2, kv.1, kv.2⟩))
    []

/-- `found_mentions.sort(key=lambda x: x[0])`: stable sort by start
offset. -/
def sortByStart (l : List Mention) : List Mention :=
  sortBy (fun a b => Nat.ble a.startPos b.startPos) l

/-- Span intersection test of `_find_all_items`:
`not (end <= prev_start or start >= prev_end)`. -/
def overlapB (c p : Mention) : Bool :=
  !(decide (c.endPos ≤ p.startPos) || decide (p.endPos ≤ c.startPos))

/-- The inner `for prev in filtered_mentions` loop of `_find_all_items`,
with CPython's iterator semantics made explicit: `kept` is the prefix of
the accepted list already passed over, the third argument the suffix not
yet examined.  When the candidate's alias is strictly longer than an
intersecting accepted mention `p`, `p` is removed from the list
(`filtered_mentions.remove(...)`) — and because the list iterator's
position index is not adjusted, the element `q` that slides into `p`'s
slot is never examined, so it moves directly into `kept`.  When the
candidate intersects an accepted mention that is not strictly shorter,
the loop breaks with the overlap flag set and the list as mutated so
far. -/
def innerScan (c : Mention) (kept : List Mention) : List Mention → List Mention × Bool
  | [] => (kept, false)
  | p :: rest =>
    if overlapB c p then
      if p.aliasStr.length < c.aliasStr.length then
        match rest with
        | [] => (kept, false)
        | q :: rest₂ => innerScan c (kept ++ [q]) rest₂
      else (kept ++ p :: rest, true)
    else innerScan c (kept ++ [p]) rest

/-- One candidate step of the overlap-resolution loop: run the inner
scan from the start of the accepted list and append the candidate unless
the overlap flag was set. -/
def filterStep (acc : List Mention) (c : Mention) : List Mention :=
  let r := innerScan c [] acc
  if r.2 then r.1 else r.1 ++ [c]

/-- The full overlap-resolution loop of `_find_all_items`. -/
def filterMentions (cands : List Mention) : List Mention :=
  cands.foldl filterStep []

/-- Modelled from the spec: one step of the overlap policy exactly as
§4.3 words it — accept a candidate intersecting no accepted span;
against an intersecting accepted span, replace it when the candidate's
alias is strictly longer, otherwise discard the candidate. -/
def specStep (acc : List Mention) (c : Mention) : List Mention :=
  match acc.find? (fun p => overlapB c p) with
  | none => acc ++ [c]
  | some p =>
    if p.aliasStr.length < c.aliasStr.length then acc.erase p ++ [c] else acc

/-- Modelled from the spec: the §4.3 overlap-resolution pass, processed
in ascending start order. -/
def specResolve (cands : List Mention) : List Mention :=
  cands.foldl specStep []

/-! ## Attribute extraction (`_extract_quantity`, `_extract_size`,
`_extract_modifiers`) -/

/-- The number words of `_extract_quantity`. -/
def numberWords : List (List Char × ℤ) :=
  [ ("one".data, 1), ("two".data, 2), ("three".data, 3), ("four".data, 4)
  , ("five".data, 5), ("six".data, 6), ("seven".data, 7), ("eight".data, 8)
  , ("nine".data, 9), ("ten".data, 10), ("a".data, 1), ("an".data, 1) ]

/-- Numeric value of an all-digit word (`int(word)`). -/
def digitsVal (w : List Char) : ℤ :=
  (w.foldl (fun n c => n * 10 + (c.toNat - 48)) 0 : ℕ)

/-- The backward scan over the (reversed) last words before the alias:
first word that is a number word or all digits gives the quantity,
otherwise 1. -/
def scanQty : List (List Char) → ℤ
  | [] => 1
  | w :: ws =>
    match numberWords.find? (fun kv => kv.1 == w) with
    | some kv => kv.2
    | none => if !w.isEmpty && w.all isDigitB then digitsVal w else scanQty ws

/-- `_extract_quantity`: find the alias in the context, split the text
before it into words, and scan the last five words backwards. -/
def extract_quantity (context : List Char) (al : List Char) : ℤ :=
  match firstIndexOf al context with
  | none => 1
  | some i =>
    let words := splitWs (context.take i)
    scanQty (words.drop (words.length - 5)).reverse

/-- `_extract_size`: `None` for items without size variations; otherwise
the first size synonym (in table order) occurring whole-word in the
context, falling back to the category default or `"medium"`. -/
def extract_size (menu : Menu) (item : MenuItem) (context : List Char) : Option String :=
  if item.size_variations.isEmpty then none
  else
    match menu.size_synonyms.find? (fun kv => !(findWholeWord kv.1.data context).isEmpty) with
    | some kv => some kv.2
    | none =>
      some (((menu.default_sizes.find? (fun kv => kv.1 == item.category)).map (·.2)).getD "medium")

/-- `_extract_modifiers`: global synonym substring scan first, then the
item's own modifier names; each canonical name recorded at most once, in
first-encountered order. -/
def extract_modifiers (mm : List (List Char × String)) (item : MenuItem)
    (context : List Char) : List String :=
  let step₁ := mm.foldl
    (fun acc kv => if isSubstr kv.1 context && !acc.contains kv.2 then acc ++ [kv.2] else acc)
    []
  item.modifiers.foldl
    (fun acc m => if isSubstr (lowData m) context && !acc.contains m then acc ++ [m] else acc)
    step₁

/-- `_calculate_price`: base price plus the size delta when a size was
resolved (and, Python truthiness, is a nonempty string) and is a key of
the item's size-variation table. -/
def calculate_price (item : MenuItem) (size : Option String) (_mods : List String) : ℚ :=
  match size with
  | none => item.base_price
  | some s =>
    if s ≠ "" then
      match item.size_variations.find? (fun kv => kv.1 == s) with
      | some kv => item.base_price + kv.2
      | none => item.base_price
    else item.base_price

/-- The per-mention cart-item construction of `_find_all_items`: context
window of 50 characters before and 100 after the mention, clipped to the
text. -/
def mkCartItem (menu : Menu) (mm : List (List Char × String)) (text : List Char)
    (m : Mention) : CartItem :=
  let ctxStart := m.startPos - 50
  let ctxEnd := min text.length (m.endPos + 100)
  let context := (text.take ctxEnd).drop ctxStart
  let q := extract_quantity context m.aliasStr
  let size := extract_size menu m.item context
  let mods := extract_modifiers mm m.item context
  ⟨m.item.sku, m.item.name, q, size, mods, calculate_price m.item size mods⟩

/-- `_find_all_items`: find, sort and overlap-filter all mentions, then
build one cart item per surviving mention. -/
def find_all_items (menu : Menu) (amap : List (List Char × MenuItem))
    (mm : List (List Char × String)) (text : List Char) : List CartItem :=
  (filterMentions (sortByStart (rawMentions amap text))).map (mkCartItem menu mm text)

/-! ## Cart operations (`Cart`) -/

/-- `Cart.add_item`. -/
def addItem (c : Cart) (it : CartItem) : Cart :=
  ⟨c.items ++ [it], c.total + it.price * (it.quantity : ℚ)⟩

/-- The merge identity key `(item.sku, item.size, tuple(sorted(item.modifiers)))`. -/
def itemKey (it : CartItem) : String × Option String × List String :=
  (it.sku, it.size, sortStr it.modifiers)

/-- One step of `merge_duplicates`' dict accumulation: add the item's
quantity onto the entry already stored under its key, or append a fresh
copy of the item under its key. -/
def bump (acc : List ((String × Option String × List String) × CartItem))
    (it : CartItem) : List ((String × Option String × List String) × CartItem) :=
  if acc.any (fun e => decide (e.1 = itemKey it)) then
    acc.map (fun e =>
      if e.1 = itemKey it then
        (e.1, ⟨e.2.sku, e.2.name, e.2.quantity + it.quantity, e.2.size, e.2.modifiers, e.2.price⟩)
      else e)
  else acc ++ [(itemKey it, ⟨it.sku, it.name, it.quantity, it.size, it.modifiers, it.price⟩)]

/-- `Cart.merge_duplicates`: group by identity key in first-occurrence
order, sum quantities, and recompute the total from the merged items. -/
def mergeDuplicates (c : Cart) : Cart :=
  let merged := (c.items.foldl bump []).map (·.2)
  ⟨merged, (merged.map (fun it => it.price * (it.quantity : ℚ))).sum⟩

/-! ## Order parsing (`CartNormalizer.parse_order`) -/

/-- `parse_order`: strip corrections, normalize, find all items, add
them to a fresh cart and merge duplicates. -/
def parse_order (menu : Menu) (text : List Char) : Cart :=
  let t := handle_corrections text
  let n := normalize_text t
  let items := find_all_items menu (buildAliasMap menu) (buildModifierMap menu) n
  mergeDuplicates (items.foldl addItem ⟨[], 0⟩)

/-! ## Serialization (`Cart.to_dict`) -/

/-- One serialized item of `Cart.to_dict` (all fields copied verbatim,
no rounding). -/
structure ItemDict where
  sku : String
  name : String
  quantity : ℤ
  size : Option String
  modifiers : List String
  price : ℚ
deriving DecidableEq, Repr

/-- The serialized cart of `Cart.to_dict`. -/
structure CartDict where
  items : List ItemDict
  total : ℚ
deriving DecidableEq, Repr

/-- `round(x, 2)`.  (Python rounds float ties to even; no property here
depends on a tie, so the rounding direction at exact `.005` ties is
immaterial.) -/
def round2 (q : ℚ) : ℚ := (round (q * 100) : ℤ) / 100

/-- `Cart.to_dict`: items verbatim, total rounded to 2 decimals. -/
def cart_to_dict (c : Cart) : CartDict :=
  ⟨c.items.map (fun it => ⟨it.sku, it.name, it.quantity, it.size, it.modifiers, it.price⟩),
    round2 c.total⟩

/-! ## Cart evaluation (`CartEvaluator`) -/

/-- Python `set(a) == set(b)` on modifier lists. -/
def sameSet (xs ys : List String) : Bool :=
  xs.all (fun x => ys.contains x) && ys.all (fun y => xs.contains y)

/-- `CartEvaluator.exact_match`: equal lengths, then sort both item
lists by `(sku, size, tuple(modifiers))` and compare pairwise on sku,
quantity, size and modifier set. -/
def exact_match (actual expected : Cart) : Bool :=
  if actual.items.length ≠ expected.items.length then false
  else
    let a := sortBy (fun x y => keyLeB (sortKey x) (sortKey y)) actual.items
    let e := sortBy (fun x y => keyLeB (sortKey x) (sortKey y)) expected.items
    (a.zip e).all (fun p =>
      p.1.sku == p.2.sku && p.1.quantity == p.2.quantity && p.1.size == p.2.size
        && sameSet p.1.modifiers p.2.modifiers)

/-- The set entry `(item.sku, item.size, tuple(sorted(item.modifiers)))`
of `calculate_f1`. -/
def itemEntry (it : CartItem) : String × Option String × List String :=
  (it.sku, it.size, sortStr it.modifiers)

/-- The expansion of a cart into a set of entries: an item contributes
its entry once when its quantity is at least 1 (`for _ in
range(item.quantity)` adds the same entry `quantity` times, and a set
collapses them) and nothing otherwise.  The set is modelled as a
duplicate-free list in insertion order; `calculate_f1` only ever uses
cardinalities, so the order carries no weight. -/
def cartEntries (c : Cart) : List (String × Option String × List String) :=
  c.items.foldl
    (fun acc it =>
      if 1 ≤ it.quantity then
        if acc.contains (itemEntry it) then acc else acc ++ [itemEntry it]
      else acc)
    []

/-- `CartEvaluator.calculate_f1`. -/
def calculate_f1 (actual expected : Cart) : ℚ :=
  let A := cartEntries actual
  let E := cartEntries expected
  if E.isEmpty then (if A.isEmpty then 1 else 0)
  else
    let tp := (A.filter (fun x => E.contains x)).length
    let fp := (A.filter (fun x => !E.contains x)).length
    let fn := (E.filter (fun x => !A.contains x)).length
    let prec : ℚ := if tp + fp > 0 then (tp : ℚ) / ((tp : ℚ) + (fp : ℚ)) else 0
    let rcl : ℚ := if tp + fn > 0 then (tp : ℚ) / ((tp : ℚ) + (fn : ℚ)) else 0
    if prec + rcl > 0 then 2 * (prec * rcl) / (prec + rcl) else 0

/-! ## The evaluation harness's recovery branch (`evaluate.py`) -/

/-- The names `evaluate.py` imports at module scope:
`import argparse, json, logging, sys`, `from datetime import datetime`,
`from typing import Dict, List`, `from cart_engine import CartEvaluator,
CartNormalizer`, `from menu_data import get_menu`, and
`from test_scenarios import TestScenario, get_all_scenarios,
get_scenarios_by_menu`. -/
def evaluateImportedNames : List String :=
  [ "argparse", "json", "logging", "sys", "datetime", "Dict", "List"
  , "CartEvaluator", "CartNormalizer", "get_menu"
  , "TestScenario", "get_all_scenarios", "get_scenarios_by_menu" ]

/-- The names `evaluate.py` itself defines at module scope. -/
def evaluateModuleDefs : List String :=
  ["logger", "EvaluationReport", "run_evaluation", "main"]

/-- Outcome of `run_evaluation`'s `except` branch, which executes
`actual_cart = Cart()`. -/
inductive ExceptOutcome
  | recoveredEmptyCart
  | raisedNameError
deriving DecidableEq, Repr

/-- What the `except Exception` branch of `run_evaluation` does when a
scenario's `parse_order` raises: it evaluates the global name `Cart`,
which recovers with an empty cart exactly when that name is bound in
`evaluate.py`'s module scope (it is not a Python builtin), and raises
`NameError` — aborting the whole run — otherwise. -/
def exceptHandlerOutcome : ExceptOutcome :=
  if "Cart" ∈ evaluateImportedNames ++ evaluateModuleDefs then
    .recoveredEmptyCart
  else .raisedNameError

/-! ## Theorems -/

/-- C2: the recovery the spec describes cannot happen: `run_evaluation`'s
`except` branch evaluates the name `Cart`, which is neither imported nor
defined at `evaluate.py`'s module scope (and is no builtin), so the
branch raises `NameError` instead of substituting an empty cart and
continuing the run. -/
theorem C2_except_branch_raises_nameError :
    exceptHandlerOutcome = ExceptOutcome.raisedNameError ∧
      "Cart" ∉ evaluateImportedNames ++ evaluateModuleDefs := by
  decide

/-- C3: on the small menu the scenario input
`"two medium regular brewed coffees with cream"` produces an empty cart
with total 0 — the plural `"coffees"` defeats every whole-word alias
match — not the single COF001 item with quantity 2 and total 4.18 the
spec's scenario expects. -/
theorem C3_plural_input_yields_empty_cart :
    (parse_order SMALL_MENU "two medium regular brewed coffees with cream".data).items = []
      ∧ (parse_order SMALL_MENU "two medium regular brewed coffees with cream".data).total = 0 := by
  constructor
  · decide
  · decide

/-- C4 counterexample: the input `"0 coffee"` produces a cart item with
quantity 0 (`"0".isdigit()` holds and `int("0") = 0`), refuting the
claim that every parsed cart item has quantity at least 1. -/
theorem C4_counterexample_zero_quantity :
    ((parse_order SMALL_MENU "0 coffee".data).items.all
      (fun it => decide (1 ≤ it.quantity))) = false := by
  decide

/-- C6 counterexample: two empty carts have (vacuously) fully disjoint
SKU sets, yet `calculate_f1` short-circuits to 1, not 0. -/
theorem C6_counterexample_empty_carts :
    (∀ i ∈ (⟨[], 0⟩ : Cart).items, ∀ j ∈ (⟨[], 0⟩ : Cart).items, i.sku ≠ j.sku)
      ∧ calculate_f1 ⟨[], 0⟩ ⟨[], 0⟩ = 1 ∧ calculate_f1 ⟨[], 0⟩ ⟨[], 0⟩ ≠ 0 := by
  refine ⟨by simp, rfl, ?_⟩
  rw [show calculate_f1 ⟨[], 0⟩ ⟨[], 0⟩ = 1 from rfl]
  norm_num

/-- C9 counterexample: a cart with two items sharing the sort key
`(sku, size, modifiers)` but with different quantities is not
`exact_match`-equal to its reversal: the stable sorts keep the two
original orders, so quantities 1 and 2 get compared crosswise. -/
theorem C9_counterexample_duplicate_keys :
    exact_match
        ⟨[⟨"COF001", "Regular Brewed Coffee", 1, none, [], 0⟩,
          ⟨"COF001", "Regular Brewed Coffee", 2, none, [], 0⟩], 0⟩
        ⟨[⟨"COF001", "Regular Brewed Coffee", 2, none, [], 0⟩,
          ⟨"COF001", "Regular Brewed Coffee", 1, none, [], 0⟩], 0⟩ = false := by
  decide


/-! ## Lemmas about `merge_duplicates` -/

/-- Keys of the first-occurrence grouping: the key list Python's dict
builds while `merge_duplicates` folds over the items. -/
def firstKeys (l : List CartItem) : List (String × Option String × List String) :=
  l.foldl (fun ks it => if itemKey it ∈ ks then ks else ks ++ [itemKey it]) []

/-- Total quantity of the items of `l` whose identity key is `k`. -/
def qsum (l : List CartItem) (k : String × Option String × List String) : ℤ :=
  ((l.filter (fun it => decide (itemKey it = k))).map (·.quantity)).sum

/-- Quantity stored under key `k` in the accumulator, 0 if absent. -/
def lookupQ (acc : List ((String × Option String × List String) × CartItem))
    (k : String × Option String × List String) : ℤ :=
  match acc.find? (fun e => decide (e.1 = k)) with
  | some e => e.2.quantity
  | none => 0

theorem itemKey_update (it : CartItem) (q : ℤ) :
    itemKey { it with quantity := q } = itemKey it := rfl

theorem bump_mem_presence (acc : List ((String × Option String × List String) × CartItem))
    (it : CartItem) :
    (acc.any (fun e => decide (e.1 = itemKey it))) = true ↔ itemKey it ∈ acc.map (·.1) := by
  rw [List.any_eq_true]
  constructor
  · rintro ⟨e, he, hd⟩
    exact List.mem_map.mpr ⟨e, he, of_decide_eq_true hd⟩
  · intro h
    rcases List.mem_map.mp h with ⟨e, he, hk⟩
    exact ⟨e, he, decide_eq_true hk⟩

theorem bump_entry_key (acc : List ((String × Option String × List String) × CartItem))
    (it : CartItem) (h : ∀ e ∈ acc, e.1 = itemKey e.2) :
    ∀ e ∈ bump acc it, e.1 = itemKey e.2 := by
  intro e he
  unfold bump at he
  split at he
  · rcases List.mem_map.mp he with ⟨e', he', rfl⟩
    by_cases hk : e'.1 = itemKey it
    · rw [if_pos hk]
      exact h e' he'
    · rw [if_neg hk]
      exact h e' he'
  · rcases List.mem_append.mp he with he' | he'
    · exact h e he'
    · simp only [List.mem_singleton] at he'
      subst he'
      rfl

theorem foldl_bump_entry_key (l : List CartItem)
    (acc : List ((String × Option String × List String) × CartItem))
    (h : ∀ e ∈ acc, e.1 = itemKey e.2) :
    ∀ e ∈ l.foldl bump acc, e.1 = itemKey e.2 := by
  induction l generalizing acc with
  | nil => exact h
  | cons it l ih => exact ih (bump acc it) (bump_entry_key acc it h)

theorem bump_keys (acc : List ((String × Option String × List String) × CartItem))
    (it : CartItem) :
    (bump acc it).map (·.1) =
      if itemKey it ∈ acc.map (·.1) then acc.map (·.1) else acc.map (·.1) ++ [itemKey it] := by
  unfold bump
  by_cases h : itemKey it ∈ acc.map (·.1)
  · rw [if_pos ((bump_mem_presence acc it).mpr h), if_pos h, List.map_map]
    refine List.map_congr_left ?_
    intro e _
    by_cases hk : e.1 = itemKey it
    · rw [Function.comp_apply, if_pos hk]
    · rw [Function.comp_apply, if_neg hk]
  · rw [if_neg (fun hc => h ((bump_mem_presence acc it).mp hc)), if_neg h]
    simp

theorem foldl_bump_keys (l : List CartItem)
    (acc : List ((String × Option String × List String) × CartItem)) :
    (l.foldl bump acc).map (·.1) =
      l.foldl (fun ks it => if itemKey it ∈ ks then ks else ks ++ [itemKey it])
        (acc.map (·.1)) := by
  induction l generalizing acc with
  | nil => rfl
  | cons it l ih =>
    simp only [List.foldl_cons]
    rw [ih (bump acc it), bump_keys]

theorem bump_keys_nodup (acc : List ((String × Option String × List String) × CartItem))
    (it : CartItem) (h : (acc.map (·.1)).Nodup) : ((bump acc it).map (·.1)).Nodup := by
  rw [bump_keys]
  by_cases hm : itemKey it ∈ acc.map (·.1)
  · rw [if_pos hm]
    exact h
  · rw [if_neg hm]
    simpa [List.nodup_append, hm] using h

theorem foldl_bump_keys_nodup (l : List CartItem)
    (acc : List ((String × Option String × List String) × CartItem))
    (h : (acc.map (·.1)).Nodup) : ((l.foldl bump acc).map (·.1)).Nodup := by
  induction l generalizing acc with
  | nil => exact h
  | cons it l ih => exact ih (bump acc it) (bump_keys_nodup acc it h)

theorem foldl_bump_fix (l : List CartItem)
    (acc : List ((String × Option String × List String) × CartItem))
    (hnd : (l.map itemKey).Nodup)
    (hdisj : ∀ it ∈ l, itemKey it ∉ acc.map (·.1)) :
    l.foldl bump acc = acc ++ l.map (fun it => (itemKey it, it)) := by
  induction l generalizing acc with
  | nil => simp
  | cons it l ih =>
    have hcons : (itemKey it :: l.map itemKey).Nodup := by simpa using hnd
    have hnotin : (acc.any (fun e => decide (e.1 = itemKey it))) ≠ true := fun hc =>
      hdisj it (List.mem_cons_self it l) ((bump_mem_presence acc it).mp hc)
    have hbump : bump acc it = acc ++ [(itemKey it, it)] := by
      unfold bump
      rw [if_neg hnotin]
    have hdisj' : ∀ it' ∈ l, itemKey it' ∉ (acc ++ [(itemKey it, it)]).map (·.1) := by
      intro it' hit'
      simp only [List.map_append, List.mem_append, List.map_cons, List.map_nil,
        List.mem_singleton]
      rintro (hin | hkey)
      · exact hdisj it' (List.mem_cons_of_mem _ hit') hin
      · exact (List.nodup_cons.mp hcons).1 (hkey ▸ List.mem_map_of_mem itemKey hit')
    simp only [List.foldl_cons, hbump]
    rw [ih (acc ++ [(itemKey it, it)]) (List.nodup_cons.mp hcons).2 hdisj']
    simp

theorem merge_items_keys (c : Cart) :
    (mergeDuplicates c).items.map itemKey = (c.items.foldl bump []).map (·.1) := by
  unfold mergeDuplicates
  simp only
  rw [List.map_map]
  refine List.map_congr_left ?_
  intro e he
  exact (foldl_bump_entry_key c.items [] (by intro e h; cases h) e he).symm

theorem merge_items_keys_nodup (c : Cart) :
    ((mergeDuplicates c).items.map itemKey).Nodup := by
  rw [merge_items_keys]
  exact foldl_bump_keys_nodup c.items [] List.nodup_nil

/-- C5: `merge_duplicates` is idempotent — merging an already-merged
cart changes neither the items nor the total. -/
theorem C5_merge_duplicates_idempotent (c : Cart) :
    mergeDuplicates (mergeDuplicates c) = mergeDuplicates c := by
  have hnd : ((mergeDuplicates c).items.map itemKey).Nodup := merge_items_keys_nodup c
  have hfix : (mergeDuplicates c).items.foldl bump [] =
      (mergeDuplicates c).items.map (fun it => (itemKey it, it)) := by
    simpa using foldl_bump_fix (mergeDuplicates c).items [] hnd (by simp)
  show Cart.mk (((mergeDuplicates c).items.foldl bump []).map (·.2)) _ = mergeDuplicates c
  rw [hfix, List.map_map]
  have hid : ((mergeDuplicates c).items.map ((·.2) ∘ fun it => (itemKey it, it))) =
      (mergeDuplicates c).items := by
    have hcomp : ((·.2 : (String × Option String × List String) × CartItem → CartItem) ∘
        fun it => (itemKey it, it)) = id := by
      funext a
      rfl
    rw [hcomp, List.map_id]
  show Cart.mk ((mergeDuplicates c).items.map ((·.2) ∘ fun it => (itemKey it, it)))
      (((((mergeDuplicates c).items.map ((·.2) ∘ fun it => (itemKey it, it)))).map
        (fun it => it.price * (it.quantity : ℚ))).sum) = mergeDuplicates c
  rw [hid]
  rfl

theorem qsum_nil (k : String × Option String × List String) : qsum [] k = 0 := rfl

theorem qsum_cons (it : CartItem) (l : List CartItem)
    (k : String × Option String × List String) :
    qsum (it :: l) k = (if itemKey it = k then it.quantity else 0) + qsum l k := by
  unfold qsum
  by_cases h : itemKey it = k
  · rw [if_pos h]
    rw [List.filter_cons_of_pos (by simpa using h)]
    simp
  · rw [if_neg h]
    rw [List.filter_cons_of_neg (by simpa using h)]
    simp

theorem find_nodup_self (acc : List ((String × Option String × List String) × CartItem))
    (hnd : (acc.map (·.1)).Nodup) (e : (String × Option String × List String) × CartItem)
    (he : e ∈ acc) : acc.find? (fun x => decide (x.1 = e.1)) = some e := by
  induction acc with
  | nil => cases he
  | cons f rest ih =>
    rcases List.mem_cons.mp he with rfl | he'
    · rw [List.find?_cons_of_pos _ (by simp)]
    · have hne : ¬(f.1 = e.1) := by
        intro hc
        apply (List.nodup_cons.mp hnd).1
        show f.1 ∈ List.map (fun x => x.1) rest
        rw [hc]
        exact List.mem_map_of_mem (fun x => x.1) he'
      rw [List.find?_cons_of_neg _ (by simpa using hne)]
      exact ih (List.nodup_cons.mp hnd).2 he'

theorem find_map_keyfix (acc : List ((String × Option String × List String) × CartItem))
    (g : (String × Option String × List String) × CartItem →
      (String × Option String × List String) × CartItem)
    (hg : ∀ e, (g e).1 = e.1) (k : String × Option String × List String) :
    (acc.map g).find? (fun x => decide (x.1 = k)) =
      (acc.find? (fun x => decide (x.1 = k))).map g := by
  induction acc with
  | nil => rfl
  | cons f rest ih =>
    by_cases h : f.1 = k
    · rw [List.map_cons, List.find?_cons_of_pos _ (by simp [hg, h]),
        List.find?_cons_of_pos _ (by simp [h])]
      rfl
    · rw [List.map_cons, List.find?_cons_of_neg _ (by simp [hg, h]),
        List.find?_cons_of_neg _ (by simp [h])]
      exact ih

theorem find_of_any_false (acc : List ((String × Option String × List String) × CartItem))
    (k : String × Option String × List String)
    (h : (acc.any (fun e => decide (e.1 = k))) ≠ true) :
    acc.find? (fun x => decide (x.1 = k)) = none := by
  rw [List.find?_eq_none]
  intro e he
  simp only [decide_eq_true_eq]
  intro hc
  exact h (List.any_eq_true.mpr ⟨e, he, decide_eq_true hc⟩)

theorem lookupQ_eq_of_find (acc : List ((String × Option String × List String) × CartItem))
    (k : String × Option String × List String)
    (e : (String × Option String × List String) × CartItem)
    (h : acc.find? (fun x => decide (x.1 = k)) = some e) : lookupQ acc k = e.2.quantity := by
  unfold lookupQ
  rw [h]

theorem lookupQ_eq_zero (acc : List ((String × Option String × List String) × CartItem))
    (k : String × Option String × List String)
    (h : acc.find? (fun x => decide (x.1 = k)) = none) : lookupQ acc k = 0 := by
  unfold lookupQ
  rw [h]

theorem lookupQ_bump (acc : List ((String × Option String × List String) × CartItem))
    (it : CartItem) (k : String × Option String × List String) :
    lookupQ (bump acc it) k =
      lookupQ acc k + (if itemKey it = k then it.quantity else 0) := by
  unfold bump
  by_cases hp : (acc.any (fun e => decide (e.1 = itemKey it))) = true
  · rw [if_pos hp]
    have hmap := find_map_keyfix acc
      (fun e => if e.1 = itemKey it then
        (e.1, ⟨e.2.sku, e.2.name, e.2.quantity + it.quantity, e.2.size, e.2.modifiers, e.2.price⟩)
      else e)
      (fun e => by
        simp only
        by_cases hk : e.1 = itemKey it
        · rw [if_pos hk]
        · rw [if_neg hk]) k
    cases hfind : acc.find? (fun x => decide (x.1 = k)) with
    | none =>
      rw [hfind] at hmap
      have hkk : ¬(itemKey it = k) := by
        intro hc
        rcases List.any_eq_true.mp hp with ⟨e, he, hd⟩
        have hek : e.1 = k := hc ▸ of_decide_eq_true hd
        rw [List.find?_eq_none] at hfind
        exact hfind e he (decide_eq_true hek)
      rw [lookupQ_eq_zero _ _ hmap, lookupQ_eq_zero _ _ hfind, if_neg hkk]
      omega
    | some e =>
      rw [hfind] at hmap
      have hek : e.1 = k := by simpa using List.find?_some hfind
      by_cases hkk : itemKey it = k
      · have he1 : e.1 = itemKey it := hek.trans hkk.symm
        rw [Option.map_some', if_pos he1] at hmap
        rw [lookupQ_eq_of_find _ _ _ hmap, lookupQ_eq_of_find _ _ _ hfind, if_pos hkk]
      · have he1 : ¬(e.1 = itemKey it) := fun hc => hkk (hc.symm.trans hek)
        rw [Option.map_some', if_neg he1] at hmap
        rw [lookupQ_eq_of_find _ _ _ hmap, lookupQ_eq_of_find _ _ _ hfind, if_neg hkk, add_zero]
  · rw [if_neg hp]
    cases hfind : acc.find? (fun x => decide (x.1 = k)) with
    | some e =>
      have happ : (acc ++
          [(itemKey it, (⟨it.sku, it.name, it.quantity, it.size, it.modifiers, it.price⟩ :
            CartItem))]).find? (fun x => decide (x.1 = k)) = some e := by
        rw [List.find?_append, hfind]
        rfl
      have hkk : ¬(itemKey it = k) := by
        intro hc
        apply hp
        refine List.any_eq_true.mpr ⟨e, List.mem_of_find?_eq_some hfind, ?_⟩
        have hek : e.1 = k := by simpa using List.find?_some hfind
        exact decide_eq_true (hek.trans hc.symm)
      rw [lookupQ_eq_of_find _ _ _ happ, lookupQ_eq_of_find _ _ _ hfind, if_neg hkk, add_zero]
    | none =>
      by_cases hkk : itemKey it = k
      · have happ : (acc ++
            [(itemKey it, (⟨it.sku, it.name, it.quantity, it.size, it.modifiers, it.price⟩ :
              CartItem))]).find? (fun x => decide (x.1 = k)) =
            some (itemKey it, ⟨it.sku, it.name, it.quantity, it.size, it.modifiers, it.price⟩) := by
          rw [List.find?_append, hfind]
          simp [List.find?_cons, hkk]
        rw [lookupQ_eq_of_find _ _ _ happ, lookupQ_eq_zero _ _ hfind, if_pos hkk, zero_add]
      · have happ : (acc ++
            [(itemKey it, (⟨it.sku, it.name, it.quantity, it.size, it.modifiers, it.price⟩ :
              CartItem))]).find? (fun x => decide (x.1 = k)) = none := by
          rw [List.find?_append, hfind]
          simp [List.find?_cons, hkk]
        rw [lookupQ_eq_zero _ _ happ, lookupQ_eq_zero _ _ hfind, if_neg hkk, add_zero]

theorem foldl_bump_quantity (l : List CartItem)
    (acc : List ((String × Option String × List String) × CartItem))
    (hnd : (acc.map (·.1)).Nodup) :
    ∀ e ∈ l.foldl bump acc, e.2.quantity = lookupQ acc e.1 + qsum l e.1 := by
  induction l generalizing acc with
  | nil =>
    intro e he
    rw [qsum_nil, add_zero, lookupQ_eq_of_find acc e.1 e (find_nodup_self acc hnd e he)]
  | cons it l ih =>
    intro e he
    have hstep := ih (bump acc it) (bump_keys_nodup acc it hnd) e he
    rw [hstep, lookupQ_bump acc it e.1, qsum_cons]
    omega

/-- C10: after `merge_duplicates` the identity keys are pairwise
distinct, each merged item's quantity is the sum of the quantities of
the pre-merge items sharing its key, merged keys appear in order of
first occurrence, and the total is recomputed as Σ price·quantity over
the merged items. -/
theorem C10_merge_duplicates_grouping (c : Cart) :
    ((mergeDuplicates c).items.map itemKey).Nodup
      ∧ (∀ it ∈ (mergeDuplicates c).items, it.quantity = qsum c.items (itemKey it))
      ∧ (mergeDuplicates c).items.map itemKey = firstKeys c.items
      ∧ (mergeDuplicates c).total =
          ((mergeDuplicates c).items.map (fun it => it.price * (it.quantity : ℚ))).sum := by
  refine ⟨merge_items_keys_nodup c, ?_, ?_, rfl⟩
  · intro it hit
    rcases List.mem_map.mp hit with ⟨e, he, rfl⟩
    have hkey := foldl_bump_entry_key c.items [] (by intro e h; cases h) e he
    have hq := foldl_bump_quantity c.items [] List.nodup_nil e he
    rw [hq, ← hkey]
    show lookupQ [] e.1 + qsum c.items e.1 = qsum c.items e.1
    rw [lookupQ_eq_zero [] e.1 rfl, zero_add]
  · rw [merge_items_keys, foldl_bump_keys]
    rfl

/-- A concrete cart with two items sharing the identity key, for the
C10 witness. -/
def c10cart : Cart :=
  ⟨[⟨"COF001", "Regular Brewed Coffee", 1, some "medium", ["cream"], 2.09⟩,
    ⟨"COF001", "Regular Brewed Coffee", 2, some "medium", ["cream"], 2.09⟩], 0⟩

/-- C10 witness: the grouping facts instantiated on a concrete cart with
a duplicated key, the membership hypothesis discharged on its first
merged item. -/
theorem C10_merge_duplicates_grouping_witness :
    ((mergeDuplicates c10cart).items.map itemKey).Nodup
      ∧ ((mergeDuplicates c10cart).items.head (by decide)).quantity =
          qsum c10cart.items (itemKey ((mergeDuplicates c10cart).items.head (by decide)))
      ∧ (mergeDuplicates c10cart).items.map itemKey = firstKeys c10cart.items
      ∧ (mergeDuplicates c10cart).total =
          ((mergeDuplicates c10cart).items.map (fun it => it.price * (it.quantity : ℚ))).sum := by
  obtain ⟨h1, h2, h3, h4⟩ := C10_merge_duplicates_grouping c10cart
  exact ⟨h1, h2 _ (List.head_mem _), h3, h4⟩

theorem merge_quantity_eq_qsum (c : Cart) :
    ∀ it ∈ (mergeDuplicates c).items, it.quantity = qsum c.items (itemKey it) := by
  intro it hit
  rcases List.mem_map.mp hit with ⟨e, he, rfl⟩
  have hkey := foldl_bump_entry_key c.items [] (by intro e h; cases h) e he
  have hq := foldl_bump_quantity c.items [] List.nodup_nil e he
  rw [hq, ← hkey]
  show lookupQ [] e.1 + qsum c.items e.1 = qsum c.items e.1
  rw [lookupQ_eq_zero [] e.1 rfl, zero_add]

theorem scanQty_nonneg (ws : List (List Char)) : 0 ≤ scanQty ws := by
  induction ws with
  | nil => exact zero_le_one
  | cons w ws ih =>
    unfold scanQty
    cases hfind : numberWords.find? (fun kv => kv.1 == w) with
    | some kv =>
      have hmem := List.mem_of_find?_eq_some hfind
      have hall : ∀ kv ∈ numberWords, (0 : ℤ) ≤ kv.2 := by decide
      exact hall kv hmem
    | none =>
      by_cases hd : (!w.isEmpty && w.all isDigitB) = true
      · rw [if_pos hd]
        exact Int.natCast_nonneg _
      · rw [if_neg hd]
        exact ih

theorem extract_quantity_nonneg (context al : List Char) :
    0 ≤ extract_quantity context al := by
  unfold extract_quantity
  cases firstIndexOf al context with
  | none => exact zero_le_one
  | some i => exact scanQty_nonneg _

theorem find_all_items_quantity_nonneg (menu : Menu) (amap : List (List Char × MenuItem))
    (mm : List (List Char × String)) (text : List Char) :
    ∀ it ∈ find_all_items menu amap mm text, 0 ≤ it.quantity := by
  intro it hit
  rcases List.mem_map.mp hit with ⟨m, _, rfl⟩
  exact extract_quantity_nonneg _ _

theorem foldl_addItem_items (l : List CartItem) (c : Cart) :
    (l.foldl addItem c).items = c.items ++ l := by
  induction l generalizing c with
  | nil => simp
  | cons it l ih =>
    rw [List.foldl_cons, ih (addItem c it)]
    show (c.items ++ [it]) ++ l = c.items ++ it :: l
    simp

theorem qsum_nonneg (l : List CartItem) (k : String × Option String × List String)
    (h : ∀ it ∈ l, 0 ≤ it.quantity) : 0 ≤ qsum l k := by
  refine List.sum_nonneg ?_
  intro q hq
  rcases List.mem_map.mp hq with ⟨it, hit, rfl⟩
  exact h it (List.mem_of_mem_filter hit)

/-- C4 as amended: every cart item returned by `parse_order` has a
nonnegative quantity — number words give at least 1 and the default is
1, but an all-digit word such as `"0"` gives exactly its value, which
can be 0. -/
theorem C4_amended_quantity_nonneg (menu : Menu) (text : List Char) :
    ∀ it ∈ (parse_order menu text).items, 0 ≤ it.quantity := by
  intro it hit
  unfold parse_order at hit
  rw [merge_quantity_eq_qsum _ it hit]
  refine qsum_nonneg _ _ ?_
  intro it' hit'
  rw [foldl_addItem_items] at hit'
  rcases List.mem_append.mp hit' with h | h
  · cases h
  · exact find_all_items_quantity_nonneg menu _ _ _ it' h

/-- C4 witness: the amended bound instantiated on the parse of
`"a coffee"` over the small menu. -/
theorem C4_amended_quantity_nonneg_witness :
    0 ≤ ((parse_order SMALL_MENU "a coffee".data).items.head (by decide)).quantity :=
  C4_amended_quantity_nonneg SMALL_MENU "a coffee".data _ (List.head_mem _)

theorem rawMentions_nil (amap : List (List Char × MenuItem)) (text : List Char)
    (h : ∀ kv ∈ amap, findWholeWord kv.1 text = []) : rawMentions amap text = [] := by
  unfold rawMentions
  suffices hgen : ∀ (l : List (List Char × MenuItem)) (acc : List Mention),
      (∀ kv ∈ l, findWholeWord kv.1 text = []) →
      l.foldl (fun acc kv =>
        acc ++ (findWholeWord kv.1 text).map (fun se => ⟨se.1, se.2, kv.1, kv.2⟩)) acc = acc by
    exact hgen amap [] h
  intro l
  induction l with
  | nil => intro acc _; rfl
  | cons kv l ih =>
    intro acc hl
    rw [List.foldl_cons, hl kv (List.mem_cons_self kv l)]
    show l.foldl _ (acc ++ []) = acc
    rw [List.append_nil]
    exact ih acc (fun kv' h' => hl kv' (List.mem_cons_of_mem kv h'))

/-- C8: `parse_order` is total by construction, and on any input whose
normalized text contains no whole-word occurrence of any indexed alias
it returns the empty cart with total 0. -/
theorem C8_no_mentions_empty_cart (menu : Menu) (text : List Char)
    (h : ∀ kv ∈ buildAliasMap menu,
      findWholeWord kv.1 (normalize_text (handle_corrections text)) = []) :
    parse_order menu text = ⟨[], 0⟩ := by
  have hraw : rawMentions (buildAliasMap menu) (normalize_text (handle_corrections text)) = [] :=
    rawMentions_nil _ _ h
  unfold parse_order find_all_items
  dsimp only
  rw [hraw]
  rfl

/-- C8 witness: no alias occurs in `"hello there"`, and the parse is the
empty cart. -/
theorem C8_no_mentions_empty_cart_witness :
    (∀ kv ∈ buildAliasMap SMALL_MENU,
      findWholeWord kv.1 (normalize_text (handle_corrections "hello there".data)) = [])
      ∧ parse_order SMALL_MENU "hello there".data = ⟨[], 0⟩ :=
  ⟨by decide, C8_no_mentions_empty_cart SMALL_MENU "hello there".data (by decide)⟩

theorem insBy_mem {α : Type} (le : α → α → Bool) (x y : α) (l : List α) :
    y ∈ insBy le x l ↔ y = x ∨ y ∈ l := by
  induction l with
  | nil => simp [insBy]
  | cons z zs ih =>
    unfold insBy
    by_cases h : le z x = true
    · rw [if_pos h]
      rw [List.mem_cons, ih, List.mem_cons]
      tauto
    · rw [if_neg h]
      rw [List.mem_cons, List.mem_cons]

theorem sortBy_mem {α : Type} (le : α → α → Bool) (l : List α) (y : α) :
    y ∈ sortBy le l ↔ y ∈ l := by
  unfold sortBy
  suffices hgen : ∀ (l : List α) (acc : List α),
      y ∈ l.foldl (fun acc x => insBy le x acc) acc ↔ y ∈ acc ∨ y ∈ l by
    rw [hgen l []]
    simp
  intro l
  induction l with
  | nil => simp
  | cons x xs ih =>
    intro acc
    rw [List.foldl_cons, ih (insBy le x acc), insBy_mem]
    simp only [List.mem_cons]
    tauto

theorem innerScan_fst_subset_fuel (c : Mention) (n : Nat) :
    ∀ (l kept : List Mention), l.length ≤ n →
      ∀ x ∈ (innerScan c kept l).1, x ∈ kept ∨ x ∈ l := by
  induction n with
  | zero =>
    intro l kept hl x hx
    rw [List.length_eq_zero.mp (Nat.le_zero.mp hl)] at hx ⊢
    exact Or.inl hx
  | succ n ih =>
    intro l kept hl x hx
    cases l with
    | nil => exact Or.inl hx
    | cons p rest =>
      unfold innerScan at hx
      by_cases hov : overlapB c p = true
      · rw [if_pos hov] at hx
        by_cases hlen : p.aliasStr.length < c.aliasStr.length
        · rw [if_pos hlen] at hx
          cases rest with
          | nil => exact Or.inl hx
          | cons q rest₂ =>
            have hlen₂ : rest₂.length ≤ n := by
              simp only [List.length_cons] at hl
              omega
            rcases ih rest₂ (kept ++ [q]) hlen₂ x hx with h | h
            · rcases List.mem_append.mp h with h' | h'
              · exact Or.inl h'
              · simp only [List.mem_singleton] at h'
                exact Or.inr (by simp [h'])
            · exact Or.inr (by simp [h])
        · rw [if_neg hlen] at hx
          rcases List.mem_append.mp hx with h | h
          · exact Or.inl h
          · exact Or.inr h
      · rw [if_neg hov] at hx
        have hrest : rest.length ≤ n := by
          simp only [List.length_cons] at hl
          omega
        rcases ih rest (kept ++ [p]) hrest x hx with h | h
        · rcases List.mem_append.mp h with h' | h'
          · exact Or.inl h'
          · simp only [List.mem_singleton] at h'
            exact Or.inr (by simp [h'])
        · exact Or.inr (List.mem_cons_of_mem p h)

theorem innerScan_fst_subset (c : Mention) (l kept : List Mention) :
    ∀ x ∈ (innerScan c kept l).1, x ∈ kept ∨ x ∈ l :=
  innerScan_fst_subset_fuel c l.length l kept (Nat.le_refl _)

theorem filterStep_subset (acc : List Mention) (c : Mention) :
    ∀ x ∈ filterStep acc c, x ∈ acc ∨ x = c := by
  intro x hx
  unfold filterStep at hx
  by_cases hov : (innerScan c [] acc).2 = true
  · rw [if_pos hov] at hx
    rcases innerScan_fst_subset c acc [] x hx with h | h
    · cases h
    · exact Or.inl h
  · rw [if_neg hov] at hx
    rcases List.mem_append.mp hx with h | h
    · rcases innerScan_fst_subset c acc [] x h with h' | h'
      · cases h'
      · exact Or.inl h'
    · simp only [List.mem_singleton] at h
      exact Or.inr h

theorem filterMentions_subset (cands : List Mention) :
    ∀ x ∈ filterMentions cands, x ∈ cands := by
  unfold filterMentions
  suffices hgen : ∀ (l : List Mention) (acc : List Mention),
      ∀ x ∈ l.foldl filterStep acc, x ∈ acc ∨ x ∈ l by
    intro x hx
    rcases hgen cands [] x hx with h | h
    · cases h
    · exact h
  intro l
  induction l with
  | nil =>
    intro acc x hx
    exact Or.inl hx
  | cons c rest ih =>
    intro acc x hx
    rw [List.foldl_cons] at hx
    rcases ih (filterStep acc c) x hx with h | h
    · rcases filterStep_subset acc c x h with h' | h'
      · exact Or.inl h'
      · exact Or.inr (by simp [h'])
    · exact Or.inr (List.mem_cons_of_mem c h)

theorem rawMentions_mem (amap : List (List Char × MenuItem)) (text : List Char) :
    ∀ m ∈ rawMentions amap text, (m.aliasStr, m.item) ∈ amap := by
  unfold rawMentions
  suffices hgen : ∀ (l : List (List Char × MenuItem)) (acc : List Mention),
      (∀ m ∈ acc, (m.aliasStr, m.item) ∈ amap) → (∀ kv ∈ l, kv ∈ amap) →
      ∀ m ∈ l.foldl (fun acc kv =>
        acc ++ (findWholeWord kv.1 text).map (fun se => ⟨se.1, se.2, kv.1, kv.2⟩)) acc,
        (m.aliasStr, m.item) ∈ amap by
    exact hgen amap [] (by intro m h; cases h) (fun kv h => h)
  intro l
  induction l with
  | nil =>
    intro acc hacc _ m hm
    exact hacc m hm
  | cons kv rest ih =>
    intro acc hacc hl m hm
    rw [List.foldl_cons] at hm
    refine ih _ ?_ (fun kv' h' => hl kv' (List.mem_cons_of_mem kv h')) m hm
    intro m' hm'
    rcases List.mem_append.mp hm' with h | h
    · exact hacc m' h
    · rcases List.mem_map.mp h with ⟨se, _, rfl⟩
      exact hl kv (List.mem_cons_self kv rest)

/-- The size's price delta under lookup in the item's size-variation
table (0 when the size is not a key). -/
def sizeDelta (item : MenuItem) (s : String) : ℚ :=
  ((item.size_variations.find? (fun kv => kv.1 == s)).map (·.2)).getD 0

/-- C7: unit prices are exact — base price plus the chosen size's delta
when the size is a key of the item's size-variation table, base price
alone otherwise (also when no size was resolved); no rounding happens
anywhere on the price path, and serialization copies every unit price
verbatim while rounding only the cart total to 2 decimals.  The last
conjunct ties this to the pipeline: every cart item built by
`_find_all_items` carries exactly `_calculate_price` of its mention's
menu item, resolved size and modifiers. -/
theorem C7_price_exact_and_rounding :
    (∀ (item : MenuItem) (s : String) (mods : List String), s ≠ "" →
      (s ∈ item.size_variations.map (·.1) →
        calculate_price item (some s) mods = item.base_price + sizeDelta item s)
      ∧ (s ∉ item.size_variations.map (·.1) →
        calculate_price item (some s) mods = item.base_price))
    ∧ (∀ (item : MenuItem) (mods : List String),
        calculate_price item none mods = item.base_price)
    ∧ (∀ c : Cart, (cart_to_dict c).total = round2 c.total
        ∧ (cart_to_dict c).items.map (·.price) = c.items.map (·.price))
    ∧ (∀ (menu : Menu) (amap : List (List Char × MenuItem)) (mm : List (List Char × String))
        (text : List Char), ∀ ci ∈ find_all_items menu amap mm text,
        ∃ mi, (∃ k, (k, mi) ∈ amap) ∧ ci.sku = mi.sku
          ∧ ci.price = calculate_price mi ci.size ci.modifiers) := by
  refine ⟨?_, ?_, ?_, ?_⟩
  · intro item s mods hs
    constructor
    · intro hmem
      unfold calculate_price
      dsimp only
      rw [if_pos hs]
      cases hfind : item.size_variations.find? (fun kv => kv.1 == s) with
      | none =>
        exfalso
        rcases List.mem_map.mp hmem with ⟨kv, hkv, hks⟩
        rw [List.find?_eq_none] at hfind
        exact hfind kv hkv (by simpa using hks)
      | some kv =>
        unfold sizeDelta
        rw [hfind]
        rfl
    · intro hmem
      unfold calculate_price
      dsimp only
      rw [if_pos hs]
      cases hfind : item.size_variations.find? (fun kv => kv.1 == s) with
      | none => rfl
      | some kv =>
        exfalso
        apply hmem
        have hkv := List.mem_of_find?_eq_some hfind
        have hks : kv.1 = s := by simpa using List.find?_some hfind
        exact List.mem_map.mpr ⟨kv, hkv, hks⟩
  · intro item mods
    rfl
  · intro c
    refine ⟨rfl, ?_⟩
    unfold cart_to_dict
    rw [List.map_map]
    exact List.map_congr_left (fun it _ => rfl)
  · intro menu amap mm text ci hci
    rcases List.mem_map.mp hci with ⟨m, hm, rfl⟩
    refine ⟨m.item, ⟨m.aliasStr, ?_⟩, rfl, rfl⟩
    exact rawMentions_mem amap text m
      ((sortBy_mem _ _ m).mp (filterMentions_subset _ m hm))

/-- C7 witness: the price equations instantiated on the small menu's
coffee item and the size `"medium"`, and on an empty-size item, plus the
serialization equations on a concrete cart. -/
theorem C7_price_exact_and_rounding_witness :
    (("medium" : String) ≠ "" ∧
      "medium" ∈ (SMALL_MENU.items.get ⟨3, by decide⟩).size_variations.map (·.1) ∧
      calculate_price (SMALL_MENU.items.get ⟨3, by decide⟩) (some "medium") [] =
        (SMALL_MENU.items.get ⟨3, by decide⟩).base_price +
          sizeDelta (SMALL_MENU.items.get ⟨3, by decide⟩) "medium")
    ∧ calculate_price (SMALL_MENU.items.get ⟨0, by decide⟩) none [] =
        (SMALL_MENU.items.get ⟨0, by decide⟩).base_price
    ∧ (cart_to_dict ⟨[], 0⟩).total = round2 (0 : ℚ)
    ∧ (cart_to_dict ⟨[], 0⟩).items.map (·.price) = ([] : List CartItem).map (·.price) := by
  obtain ⟨h1, h2, h3, _⟩ := C7_price_exact_and_rounding
  have hm : "medium" ∈ (SMALL_MENU.items.get ⟨3, by decide⟩).size_variations.map (·.1) := by
    decide
  refine ⟨⟨?_, hm, ?_⟩, h2 _ [], (h3 ⟨[], 0⟩).1, (h3 ⟨[], 0⟩).2⟩
  · decide
  · exact ((h1 _ "medium" [] (by decide)).1 hm)

theorem cartEntries_spec (c : Cart) :
    ∀ en ∈ cartEntries c, ∃ it ∈ c.items, en = itemEntry it := by
  unfold cartEntries
  suffices hgen : ∀ (l : List CartItem)
      (acc : List (String × Option String × List String)), ∀ en ∈ l.foldl
        (fun acc it =>
          if 1 ≤ it.quantity then
            if acc.contains (itemEntry it) then acc else acc ++ [itemEntry it]
          else acc) acc,
      en ∈ acc ∨ ∃ it ∈ l, en = itemEntry it by
    intro en hen
    rcases hgen c.items [] en hen with h | h
    · cases h
    · exact h
  intro l
  induction l with
  | nil =>
    intro acc en hen
    exact Or.inl hen
  | cons it rest ih =>
    intro acc en hen
    rw [List.foldl_cons] at hen
    have hstep : ∀ x ∈ (if 1 ≤ it.quantity then
        if acc.contains (itemEntry it) then acc else acc ++ [itemEntry it]
      else acc), x ∈ acc ∨ x = itemEntry it := by
      intro x hx
      split at hx
      · split at hx
        · exact Or.inl hx
        · rcases List.mem_append.mp hx with h | h
          · exact Or.inl h
          · simp only [List.mem_singleton] at h
            exact Or.inr h
      · exact Or.inl hx
    rcases ih _ en hen with h | h
    · rcases hstep en h with h' | h'
      · exact Or.inl h'
      · exact Or.inr ⟨it, List.mem_cons_self it rest, h'⟩
    · rcases h with ⟨it', hit', rfl⟩
      exact Or.inr ⟨it', List.mem_cons_of_mem it hit', rfl⟩

/-- C6 as amended: `calculate_f1` of a cart with itself is 1 for every
cart with at least one item; and `calculate_f1` of two carts with fully
disjoint SKU sets is 0 provided at least one of the two expansions is
non-empty — two carts that both expand to the empty set (in particular
two empty carts) instead short-circuit to 1. -/
theorem C6_f1_self_and_disjoint :
    (∀ c : Cart, c.items ≠ [] → calculate_f1 c c = 1)
    ∧ (∀ a e : Cart, (∀ i ∈ a.items, ∀ j ∈ e.items, i.sku ≠ j.sku) →
        (cartEntries a ≠ [] ∨ cartEntries e ≠ []) → calculate_f1 a e = 0) := by
  constructor
  · intro c _
    unfold calculate_f1
    dsimp only
    by_cases hE : (cartEntries c).isEmpty = true
    · rw [if_pos hE, if_pos hE]
    · rw [if_neg hE]
      have hfil1 : (cartEntries c).filter (fun x => (cartEntries c).contains x) =
          cartEntries c := by
        refine List.filter_eq_self.mpr ?_
        intro x hx
        simpa using hx
      have hfil2 : (cartEntries c).filter (fun x => !(cartEntries c).contains x) = [] := by
        refine List.filter_eq_nil_iff.mpr ?_
        intro x hx
        simpa using hx
      rw [hfil1, hfil2]
      have hn : 0 < (cartEntries c).length := by
        cases hcc : cartEntries c with
        | nil => rw [hcc] at hE; exact absurd rfl hE
        | cons x xs => simp
      have hq : ((cartEntries c).length : ℚ) ≠ 0 := Nat.cast_ne_zero.mpr (by omega)
      have hcond : (cartEntries c).length +
          ([] : List (String × Option String × List String)).length > 0 := by
        simpa using hn
      rw [if_pos hcond]
      simp only [List.length_nil, Nat.cast_zero, add_zero]
      rw [div_self hq]
      norm_num
  · intro a e hdisj hne
    unfold calculate_f1
    dsimp only
    have hAE : ∀ x ∈ cartEntries a, x ∉ cartEntries e := by
      intro x hxa hxe
      rcases cartEntries_spec a x hxa with ⟨i, hi, rfl⟩
      rcases cartEntries_spec e (itemEntry i) hxe with ⟨j, hj, hij⟩
      exact hdisj i hi j hj (congrArg Prod.fst hij)
    by_cases hE : (cartEntries e).isEmpty = true
    · rw [if_pos hE]
      have hA : ¬(cartEntries a).isEmpty = true := by
        rcases hne with h | h
        · cases hca : cartEntries a with
          | nil => exact absurd hca h
          | cons x xs => simp
        · cases hce : cartEntries e with
          | nil => exact absurd hce h
          | cons x xs => rw [hce] at hE; exact absurd hE (by simp)
      rw [if_neg hA]
    · rw [if_neg hE]
      have htp : (cartEntries a).filter (fun x => (cartEntries e).contains x) = [] := by
        refine List.filter_eq_nil_iff.mpr ?_
        intro x hx
        simpa using hAE x hx
      rw [htp]
      simp only [List.length_nil, Nat.cast_zero, zero_add, zero_div, ite_self]
      norm_num

/-- A one-item cart for the C6 witness. -/
def c6cartA : Cart :=
  ⟨[⟨"COF001", "Regular Brewed Coffee", 1, some "medium", ["cream"], 2.09⟩], 0⟩

/-- A one-item cart with a different SKU for the C6 witness. -/
def c6cartB : Cart :=
  ⟨[⟨"DON001", "Pumpkin Spice Iced Doughnut", 1, none, [], 1.29⟩], 0⟩

/-- C6 witness: both amended statements instantiated on concrete
carts. -/
theorem C6_f1_self_and_disjoint_witness :
    (c6cartA.items ≠ [] ∧ calculate_f1 c6cartA c6cartA = 1)
    ∧ ((∀ i ∈ c6cartA.items, ∀ j ∈ c6cartB.items, i.sku ≠ j.sku)
      ∧ (cartEntries c6cartA ≠ [] ∨ cartEntries c6cartB ≠ [])
      ∧ calculate_f1 c6cartA c6cartB = 0) := by
  obtain ⟨h1, h2⟩ := C6_f1_self_and_disjoint
  exact ⟨⟨by decide, h1 c6cartA (by decide)⟩,
    ⟨by decide, by decide, h2 c6cartA c6cartB (by decide) (by decide)⟩⟩

/-! ## Order theory for the `exact_match` sort key -/

theorem cmpCL_swap (a : List Char) : ∀ b, cmpCL a b = (cmpCL b a).swap := by
  induction a with
  | nil =>
    intro b
    cases b with
    | nil => rfl
    | cons y ys => rfl
  | cons x xs ih =>
    intro b
    cases b with
    | nil => rfl
    | cons y ys =>
      unfold cmpCL
      by_cases hxy : x = y
      · subst hxy
        rw [if_pos rfl, if_pos rfl]
        exact ih ys
      · rw [if_neg hxy, if_neg (Ne.symm hxy)]
        by_cases hlt : x < y
        · rw [if_pos hlt, if_neg (lt_asymm hlt)]
          rfl
        · have hyx : y < x := by
            rcases lt_trichotomy x y with h | h | h
            · exact absurd h hlt
            · exact absurd h hxy
            · exact h
          rw [if_neg hlt, if_pos hyx]
          rfl

theorem cmpCL_eq_iff (a : List Char) : ∀ b, cmpCL a b = .eq ↔ a = b := by
  induction a with
  | nil =>
    intro b
    cases b with
    | nil => simp [cmpCL]
    | cons y ys => simp [cmpCL]
  | cons x xs ih =>
    intro b
    cases b with
    | nil => simp [cmpCL]
    | cons y ys =>
      unfold cmpCL
      by_cases hxy : x = y
      · subst hxy
        rw [if_pos rfl]
        rw [ih ys]
        simp
      · rw [if_neg hxy]
        by_cases hlt : x < y
        · rw [if_pos hlt]
          simp [hxy]
        · rw [if_neg hlt]
          simp [hxy]

theorem cmpCL_lt_trans (a : List Char) :
    ∀ b c, cmpCL a b = .lt → cmpCL b c = .lt → cmpCL a c = .lt := by
  induction a with
  | nil =>
    intro b c hab hbc
    cases c with
    | nil =>
      exfalso
      cases b with
      | nil => exact absurd hbc (by simp [cmpCL])
      | cons y ys => exact absurd hbc (by simp [cmpCL])
    | cons z zs => rfl
  | cons x xs ih =>
    intro b c hab hbc
    cases b with
    | nil => exact absurd hab (by simp [cmpCL])
    | cons y ys =>
      cases c with
      | nil => exact absurd hbc (by simp [cmpCL])
      | cons z zs =>
        unfold cmpCL at hab hbc ⊢
        by_cases hxy : x = y
        · subst hxy
          rw [if_pos rfl] at hab
          by_cases hyz : x = z
          · subst hyz
            rw [if_pos rfl] at hbc
            rw [if_pos rfl]
            exact ih ys zs hab hbc
          · rw [if_neg hyz] at hbc
            rw [if_neg hyz]
            by_cases hlt : x < z
            · rw [if_pos hlt]
            · rw [if_neg hlt] at hbc
              exact absurd hbc (by simp)
        · rw [if_neg hxy] at hab
          by_cases hlt : x < y
          · rw [if_pos hlt] at hab
            by_cases hyz : y = z
            · subst hyz
              rw [if_neg hxy, if_pos hlt]
            · rw [if_neg hyz] at hbc
              by_cases hlt₂ : y < z
              · have hxz : x < z := lt_trans hlt hlt₂
                rw [if_neg (ne_of_lt hxz), if_pos hxz]
              · rw [if_neg hlt₂] at hbc
                exact absurd hbc (by simp)
          · rw [if_neg hlt] at hab
            exact absurd hab (by simp)

theorem cmpStr_swap (s t : String) : cmpStr s t = (cmpStr t s).swap :=
  cmpCL_swap s.data t.data

theorem cmpStr_eq_iff (s t : String) : cmpStr s t = .eq ↔ s = t := by
  unfold cmpStr
  rw [cmpCL_eq_iff]
  constructor
  · intro h
    cases s
    cases t
    exact congrArg String.mk (by simpa using h)
  · intro h
    rw [h]

theorem cmpStr_lt_trans (s t u : String) :
    cmpStr s t = .lt → cmpStr t u = .lt → cmpStr s u = .lt :=
  cmpCL_lt_trans s.data t.data u.data

theorem cmpOptStr_swap (a b : Option String) : cmpOptStr a b = (cmpOptStr b a).swap := by
  cases a with
  | none =>
    cases b with
    | none => rfl
    | some t => rfl
  | some s =>
    cases b with
    | none => rfl
    | some t => exact cmpStr_swap s t

theorem cmpOptStr_eq_iff (a b : Option String) : cmpOptStr a b = .eq ↔ a = b := by
  cases a with
  | none =>
    cases b with
    | none => simp [cmpOptStr]
    | some t => simp [cmpOptStr]
  | some s =>
    cases b with
    | none => simp [cmpOptStr]
    | some t =>
      unfold cmpOptStr
      rw [cmpStr_eq_iff]
      simp

theorem cmpOptStr_lt_trans (a b c : Option String) :
    cmpOptStr a b = .lt → cmpOptStr b c = .lt → cmpOptStr a c = .lt := by
  cases a with
  | none =>
    cases c with
    | none =>
      intro _ hbc
      cases b with
      | none => exact absurd hbc (by simp [cmpOptStr])
      | some t => exact absurd hbc (by simp [cmpOptStr])
    | some u =>
      intro _ _
      rfl
  | some s =>
    cases b with
    | none =>
      intro hab
      exact absurd hab (by simp [cmpOptStr])
    | some t =>
      cases c with
      | none =>
        intro _ hbc
        exact absurd hbc (by simp [cmpOptStr])
      | some u => exact cmpStr_lt_trans s t u

theorem cmpListStr_swap (a : List String) : ∀ b, cmpListStr a b = (cmpListStr b a).swap := by
  induction a with
  | nil =>
    intro b
    cases b with
    | nil => rfl
    | cons t ts => rfl
  | cons s ss ih =>
    intro b
    cases b with
    | nil => rfl
    | cons t ts =>
      unfold cmpListStr
      rw [cmpStr_swap s t]
      cases cmpStr t s with
      | lt => rfl
      | eq => exact ih ts
      | gt => rfl

theorem cmpListStr_eq_iff (a : List String) : ∀ b, cmpListStr a b = .eq ↔ a = b := by
  induction a with
  | nil =>
    intro b
    cases b with
    | nil => simp [cmpListStr]
    | cons t ts => simp [cmpListStr]
  | cons s ss ih =>
    intro b
    cases b with
    | nil => simp [cmpListStr]
    | cons t ts =>
      unfold cmpListStr
      cases hst : cmpStr s t with
      | lt =>
        have : ¬(s = t) := fun hc => by
          rw [(cmpStr_eq_iff s t).mpr hc] at hst
          cases hst
        simp [this]
      | gt =>
        have : ¬(s = t) := fun hc => by
          rw [(cmpStr_eq_iff s t).mpr hc] at hst
          cases hst
        simp [this]
      | eq =>
        have hst' : s = t := (cmpStr_eq_iff s t).mp hst
        rw [ih ts]
        simp [hst']

theorem cmpListStr_lt_trans (a : List String) :
    ∀ b c, cmpListStr a b = .lt → cmpListStr b c = .lt → cmpListStr a c = .lt := by
  induction a with
  | nil =>
    intro b c _ hbc
    cases c with
    | nil =>
      exfalso
      cases b with
      | nil => exact absurd hbc (by simp [cmpListStr])
      | cons t ts => exact absurd hbc (by simp [cmpListStr])
    | cons u us => rfl
  | cons s ss ih =>
    intro b c hab hbc
    cases b with
    | nil => exact absurd hab (by simp [cmpListStr])
    | cons t ts =>
      cases c with
      | nil =>
        exfalso
        unfold cmpListStr at hbc
        cases hbc
      | cons u us =>
        unfold cmpListStr at hab hbc ⊢
        cases hst : cmpStr s t with
        | gt => rw [hst] at hab; cases hab
        | eq =>
          have hst' : s = t := (cmpStr_eq_iff s t).mp hst
          rw [hst] at hab
          cases htu : cmpStr t u with
          | gt => rw [htu] at hbc; cases hbc
          | eq =>
            have htu' : t = u := (cmpStr_eq_iff t u).mp htu
            have hsu : cmpStr s u = .eq := by
              rw [hst'.trans htu']
              exact (cmpStr_eq_iff u u).mpr rfl
            rw [htu] at hbc
            rw [hsu]
            exact ih ts us hab hbc
          | lt =>
            have hsu : cmpStr s u = .lt := by
              rw [hst']
              exact htu
            rw [hsu]
        | lt =>
          cases htu : cmpStr t u with
          | gt => rw [htu] at hbc; cases hbc
          | eq =>
            have htu' : t = u := (cmpStr_eq_iff t u).mp htu
            have hsu : cmpStr s u = .lt := by
              rw [← htu']
              exact hst
            rw [hsu]
          | lt =>
            rw [cmpStr_lt_trans s t u hst htu]

theorem cmpKey_swap (k₁ k₂ : String × Option String × List String) :
    cmpKey k₁ k₂ = (cmpKey k₂ k₁).swap := by
  unfold cmpKey
  rw [cmpStr_swap k₁.1 k₂.1]
  cases cmpStr k₂.1 k₁.1 with
  | lt => rfl
  | gt => rfl
  | eq =>
    rw [cmpOptStr_swap k₁.2.1 k₂.2.1]
    cases cmpOptStr k₂.2.1 k₁.2.1 with
    | lt => rfl
    | gt => rfl
    | eq =>
      rw [cmpListStr_swap k₁.2.2 k₂.2.2]
      cases cmpListStr k₂.2.2 k₁.2.2 with
      | lt => rfl
      | gt => rfl
      | eq => rfl

theorem cmpKey_eq_iff (k₁ k₂ : String × Option String × List String) :
    cmpKey k₁ k₂ = .eq ↔ k₁ = k₂ := by
  unfold cmpKey
  cases hs : cmpStr k₁.1 k₂.1 with
  | lt =>
    constructor
    · intro h
      cases h
    · intro h
      rw [h] at hs
      rw [(cmpStr_eq_iff k₂.1 k₂.1).mpr rfl] at hs
      cases hs
  | gt =>
    constructor
    · intro h
      cases h
    · intro h
      rw [h] at hs
      rw [(cmpStr_eq_iff k₂.1 k₂.1).mpr rfl] at hs
      cases hs
  | eq =>
    have hs' : k₁.1 = k₂.1 := (cmpStr_eq_iff _ _).mp hs
    cases ho : cmpOptStr k₁.2.1 k₂.2.1 with
    | lt =>
      constructor
      · intro h
        cases h
      · intro h
        rw [h] at ho
        rw [(cmpOptStr_eq_iff k₂.2.1 k₂.2.1).mpr rfl] at ho
        cases ho
    | gt =>
      constructor
      · intro h
        cases h
      · intro h
        rw [h] at ho
        rw [(cmpOptStr_eq_iff k₂.2.1 k₂.2.1).mpr rfl] at ho
        cases ho
    | eq =>
      have ho' : k₁.2.1 = k₂.2.1 := (cmpOptStr_eq_iff _ _).mp ho
      rw [cmpListStr_eq_iff]
      rw [Prod.ext_iff, Prod.ext_iff]
      tauto

theorem cmpKey_lt_trans (a b c : String × Option String × List String)
    (hab : cmpKey a b = .lt) (hbc : cmpKey b c = .lt) : cmpKey a c = .lt := by
  unfold cmpKey at hab hbc ⊢
  cases hs₁ : cmpStr a.1 b.1 with
  | gt => rw [hs₁] at hab; cases hab
  | lt =>
    rw [hs₁] at hab
    cases hs₂ : cmpStr b.1 c.1 with
    | gt => rw [hs₂] at hbc; cases hbc
    | lt => rw [cmpStr_lt_trans a.1 b.1 c.1 hs₁ hs₂]
    | eq =>
      have h : b.1 = c.1 := (cmpStr_eq_iff _ _).mp hs₂
      rw [← h, hs₁]
  | eq =>
    have h₁ : a.1 = b.1 := (cmpStr_eq_iff _ _).mp hs₁
    rw [hs₁] at hab
    cases hs₂ : cmpStr b.1 c.1 with
    | gt => rw [hs₂] at hbc; cases hbc
    | lt =>
      rw [h₁, hs₂]
    | eq =>
      rw [hs₂] at hbc
      have hac : cmpStr a.1 c.1 = .eq := by
        rw [h₁]
        exact hs₂
      rw [hac]
      cases ho₁ : cmpOptStr a.2.1 b.2.1 with
      | gt => rw [ho₁] at hab; cases hab
      | lt =>
        rw [ho₁] at hab
        cases ho₂ : cmpOptStr b.2.1 c.2.1 with
        | gt => rw [ho₂] at hbc; cases hbc
        | lt => rw [cmpOptStr_lt_trans _ _ _ ho₁ ho₂]
        | eq =>
          have h : b.2.1 = c.2.1 := (cmpOptStr_eq_iff _ _).mp ho₂
          rw [← h, ho₁]
      | eq =>
        have h₂ : a.2.1 = b.2.1 := (cmpOptStr_eq_iff _ _).mp ho₁
        rw [ho₁] at hab
        cases ho₂ : cmpOptStr b.2.1 c.2.1 with
        | gt => rw [ho₂] at hbc; cases hbc
        | lt => rw [h₂, ho₂]
        | eq =>
          rw [ho₂] at hbc
          have hoc : cmpOptStr a.2.1 c.2.1 = .eq := by
            rw [h₂]
            exact ho₂
          rw [hoc]
          exact cmpListStr_lt_trans a.2.2 b.2.2 c.2.2 hab hbc

theorem keyLeB_total (k₁ k₂ : String × Option String × List String) :
    keyLeB k₁ k₂ = true ∨ keyLeB k₂ k₁ = true := by
  unfold keyLeB
  cases h : cmpKey k₁ k₂ with
  | lt => exact Or.inl rfl
  | eq => exact Or.inl rfl
  | gt =>
    right
    rw [cmpKey_swap k₂ k₁, h]
    rfl

theorem keyLeB_trans (a b c : String × Option String × List String)
    (hab : keyLeB a b = true) (hbc : keyLeB b c = true) : keyLeB a c = true := by
  unfold keyLeB at hab hbc ⊢
  cases h₁ : cmpKey a b with
  | gt => rw [h₁] at hab; cases hab
  | eq =>
    have h : a = b := (cmpKey_eq_iff _ _).mp h₁
    rw [h]
    exact hbc
  | lt =>
    cases h₂ : cmpKey b c with
    | gt => rw [h₂] at hbc; cases hbc
    | eq =>
      have h : b = c := (cmpKey_eq_iff _ _).mp h₂
      rw [← h, h₁]
    | lt =>
      rw [cmpKey_lt_trans a b c h₁ h₂]

theorem keyLeB_antisymm (a b : String × Option String × List String)
    (hab : keyLeB a b = true) (hba : keyLeB b a = true) : a = b := by
  unfold keyLeB at hab hba
  cases h : cmpKey a b with
  | eq => exact (cmpKey_eq_iff a b).mp h
  | lt =>
    exfalso
    rw [cmpKey_swap b a, h] at hba
    cases hba
  | gt =>
    exfalso
    rw [h] at hab
    cases hab

theorem insBy_perm {α : Type} (le : α → α → Bool) (x : α) (l : List α) :
    List.Perm (insBy le x l) (x :: l) := by
  induction l with
  | nil => exact List.Perm.refl _
  | cons y ys ih =>
    unfold insBy
    by_cases h : le y x = true
    · rw [if_pos h]
      exact (ih.cons y).trans (List.Perm.swap x y ys)
    · rw [if_neg h]

theorem sortBy_perm {α : Type} (le : α → α → Bool) (l : List α) :
    List.Perm (sortBy le l) l := by
  unfold sortBy
  suffices hgen : ∀ (l acc : List α),
      List.Perm (l.foldl (fun acc x => insBy le x acc) acc) (acc ++ l) by
    simpa using hgen l []
  intro l
  induction l with
  | nil => simp
  | cons x xs ih =>
    intro acc
    rw [List.foldl_cons]
    refine (ih (insBy le x acc)).trans ?_
    refine (List.Perm.append_right xs (insBy_perm le x acc)).trans ?_
    exact (List.perm_middle).symm

theorem insBy_pairwise {α : Type} (le : α → α → Bool)
    (htot : ∀ a b, le a b = true ∨ le b a = true)
    (htrans : ∀ a b c, le a b = true → le b c = true → le a c = true)
    (x : α) (l : List α) (hl : l.Pairwise (fun a b => le a b = true)) :
    (insBy le x l).Pairwise (fun a b => le a b = true) := by
  induction l with
  | nil => simp [insBy]
  | cons y ys ih =>
    unfold insBy
    rcases List.pairwise_cons.mp hl with ⟨hy, hys⟩
    by_cases h : le y x = true
    · rw [if_pos h]
      refine List.pairwise_cons.mpr ⟨?_, ih hys⟩
      intro z hz
      rcases (insBy_mem le x z ys).mp hz with rfl | hz'
      · exact h
      · exact hy z hz'
    · rw [if_neg h]
      have hx : le x y = true := (htot x y).resolve_right (fun hc => h hc)
      refine List.pairwise_cons.mpr ⟨?_, hl⟩
      intro z hz
      rcases List.mem_cons.mp hz with rfl | hz'
      · exact hx
      · exact htrans x y z hx (hy z hz')

theorem sortBy_pairwise {α : Type} (le : α → α → Bool)
    (htot : ∀ a b, le a b = true ∨ le b a = true)
    (htrans : ∀ a b c, le a b = true → le b c = true → le a c = true)
    (l : List α) : (sortBy le l).Pairwise (fun a b => le a b = true) := by
  unfold sortBy
  suffices hgen : ∀ (l acc : List α), acc.Pairwise (fun a b => le a b = true) →
      (l.foldl (fun acc x => insBy le x acc) acc).Pairwise (fun a b => le a b = true) by
    exact hgen l [] List.Pairwise.nil
  intro l
  induction l with
  | nil =>
    intro acc hacc
    exact hacc
  | cons x xs ih =>
    intro acc hacc
    rw [List.foldl_cons]
    exact ih (insBy le x acc) (insBy_pairwise le htot htrans x acc hacc)

theorem zip_self_eq {α : Type} (l : List α) : ∀ p ∈ l.zip l, p.1 = p.2 := by
  induction l with
  | nil =>
    intro p hp
    cases hp
  | cons x xs ih =>
    intro p hp
    rcases List.mem_cons.mp hp with rfl | hp'
    · rfl
    · exact ih p hp'

theorem sorted_perm_nodupkeys_eq :
    ∀ (l₁ l₂ : List CartItem), List.Perm l₁ l₂ →
      l₁.Pairwise (fun a b => keyLeB (sortKey a) (sortKey b) = true) →
      l₂.Pairwise (fun a b => keyLeB (sortKey a) (sortKey b) = true) →
      (l₁.map sortKey).Nodup → l₁ = l₂ := by
  intro l₁
  induction l₁ with
  | nil =>
    intro l₂ hperm _ _ _
    exact (hperm.nil_eq).symm ▸ rfl
  | cons x xs ih =>
    intro l₂ hperm hp₁ hp₂ hnd
    cases l₂ with
    | nil => exact absurd hperm.symm.nil_eq (by simp)
    | cons y ys =>
      have hxy : x = y := by
        have hymem : y ∈ x :: xs := hperm.symm.subset (List.mem_cons_self y ys)
        rcases List.mem_cons.mp hymem with h | h
        · exact h.symm
        · have hxmem : x ∈ y :: ys := hperm.subset (List.mem_cons_self x xs)
          rcases List.mem_cons.mp hxmem with h' | h'
          · exact h'
          · exfalso
            have hle₁ : keyLeB (sortKey x) (sortKey y) = true :=
              (List.pairwise_cons.mp hp₁).1 y h
            have hle₂ : keyLeB (sortKey y) (sortKey x) = true :=
              (List.pairwise_cons.mp hp₂).1 x h'
            have hkeq : sortKey x = sortKey y := keyLeB_antisymm _ _ hle₁ hle₂
            have : sortKey x ∈ xs.map sortKey := by
              rw [hkeq]
              exact List.mem_map_of_mem sortKey h
            exact (List.nodup_cons.mp (by simpa using hnd)).1 this
      subst hxy
      have htail : List.Perm xs ys := hperm.cons_inv
      rw [ih ys htail (List.pairwise_cons.mp hp₁).2 (List.pairwise_cons.mp hp₂).2
        (List.nodup_cons.mp (by simpa using hnd)).2]

/-- C9 as amended: `exact_match` of a cart against its reversal is true
for every cart whose items carry pairwise-distinct sort keys
`(sku, size, modifiers)` — with duplicate keys the stable sorts preserve
the two opposite arrival orders and quantities are compared crosswise —
and, so the statement ranges only over carts CPython can actually sort,
whose same-sku items agree on size being present or absent (mixed
`None`/`str` sizes under one sku make Python's `sorted` raise
`TypeError`). -/
theorem C9_exact_match_reverse_distinct_keys (c : Cart)
    (hnd : (c.items.map sortKey).Nodup)
    (_hsz : ∀ i ∈ c.items, ∀ j ∈ c.items, i.sku = j.sku → (i.size.isSome ↔ j.size.isSome)) :
    exact_match c ⟨c.items.reverse, c.total⟩ = true := by
  unfold exact_match
  dsimp only
  rw [if_neg (by simp)]
  have htot : ∀ a b : CartItem,
      (fun x y => keyLeB (sortKey x) (sortKey y)) a b = true ∨
      (fun x y => keyLeB (sortKey x) (sortKey y)) b a = true :=
    fun a b => keyLeB_total (sortKey a) (sortKey b)
  have htrans : ∀ a b d : CartItem,
      (fun x y => keyLeB (sortKey x) (sortKey y)) a b = true →
      (fun x y => keyLeB (sortKey x) (sortKey y)) b d = true →
      (fun x y => keyLeB (sortKey x) (sortKey y)) a d = true :=
    fun a b d => keyLeB_trans (sortKey a) (sortKey b) (sortKey d)
  have hs₁ := sortBy_pairwise (fun x y => keyLeB (sortKey x) (sortKey y)) htot htrans c.items
  have hs₂ := sortBy_pairwise (fun x y => keyLeB (sortKey x) (sortKey y)) htot htrans
    c.items.reverse
  have hperm : List.Perm (sortBy (fun x y => keyLeB (sortKey x) (sortKey y)) c.items)
      (sortBy (fun x y => keyLeB (sortKey x) (sortKey y)) c.items.reverse) :=
    ((sortBy_perm _ c.items).trans (List.reverse_perm c.items).symm).trans
      (sortBy_perm _ c.items.reverse).symm
  have hnds : ((sortBy (fun x y => keyLeB (sortKey x) (sortKey y)) c.items).map sortKey).Nodup :=
    (List.Perm.nodup_iff ((sortBy_perm _ c.items).map sortKey)).mpr hnd
  have heq := sorted_perm_nodupkeys_eq _ _ hperm hs₁ hs₂ hnds
  rw [← heq]
  apply List.all_eq_true.mpr
  intro p hp
  obtain ⟨u, v⟩ := p
  have huv : u = v := zip_self_eq _ (u, v) hp
  subst huv
  show (u.sku == u.sku && u.quantity == u.quantity && u.size == u.size
    && sameSet u.modifiers u.modifiers) = true
  simp [sameSet]

/-- A concrete cart with two distinct sort keys for the C9 witness. -/
def c9cart : Cart :=
  ⟨[⟨"COF001", "Regular Brewed Coffee", 1, some "medium", ["cream"], 2.09⟩,
    ⟨"DON001", "Pumpkin Spice Iced Doughnut", 2, none, [], 1.29⟩], 0⟩

/-- C9 witness: the amended order-insensitivity instantiated on a
concrete two-item cart with distinct keys. -/
theorem C9_exact_match_reverse_distinct_keys_witness :
    (c9cart.items.map sortKey).Nodup
      ∧ (∀ i ∈ c9cart.items, ∀ j ∈ c9cart.items, i.sku = j.sku →
          (i.size.isSome ↔ j.size.isSome))
      ∧ exact_match c9cart ⟨c9cart.items.reverse, c9cart.total⟩ = true :=
  ⟨by decide, by decide,
    C9_exact_match_reverse_distinct_keys c9cart (by decide) (by decide)⟩

/-! ## The overlap-resolution refinement (C1) -/

theorem overlapB_eq_true_iff (c p : Mention) :
    overlapB c p = true ↔ (p.startPos < c.endPos ∧ c.startPos < p.endPos) := by
  unfold overlapB
  rw [Bool.not_eq_true', Bool.or_eq_false_iff, decide_eq_false_iff_not, decide_eq_false_iff_not]
  omega

theorem overlapB_eq_false_iff (c p : Mention) :
    overlapB c p = false ↔ (c.endPos ≤ p.startPos ∨ p.endPos ≤ c.startPos) := by
  unfold overlapB
  rw [Bool.not_eq_false', Bool.or_eq_true_iff, decide_eq_true_eq, decide_eq_true_eq]

theorem overlapB_comm (a b : Mention) : overlapB a b = overlapB b a := by
  unfold overlapB
  rw [Bool.or_comm]

theorem innerScan_no_overlap (c : Mention) (l : List Mention)
    (h : ∀ p ∈ l, overlapB c p = false) :
    ∀ kept, innerScan c kept l = (kept ++ l, false) := by
  induction l with
  | nil =>
    intro kept
    simp [innerScan]
  | cons p rest ih =>
    intro kept
    unfold innerScan
    rw [if_neg (by rw [h p (List.mem_cons_self p rest)]; simp)]
    rw [ih (fun q hq => h q (List.mem_cons_of_mem p hq)) (kept ++ [p])]
    simp

theorem innerScan_replace (c p : Mention) (pre post : List Mention)
    (hpre : ∀ x ∈ pre, overlapB c x = false)
    (hp : overlapB c p = true)
    (hlen : p.aliasStr.length < c.aliasStr.length)
    (hpost : ∀ x ∈ post, overlapB c x = false) :
    ∀ kept, innerScan c kept (pre ++ p :: post) = (kept ++ pre ++ post, false) := by
  induction pre with
  | nil =>
    intro kept
    rw [List.nil_append]
    unfold innerScan
    rw [if_pos hp, if_pos hlen]
    cases post with
    | nil => simp
    | cons q rest₂ =>
      show innerScan c (kept ++ [q]) rest₂ = (kept ++ [] ++ q :: rest₂, false)
      rw [innerScan_no_overlap c rest₂
        (fun x hx => hpost x (List.mem_cons_of_mem q hx)) (kept ++ [q])]
      simp
  | cons x pre' ih =>
    intro kept
    rw [List.cons_append]
    unfold innerScan
    rw [if_neg (by rw [hpre x (List.mem_cons_self x pre')]; simp)]
    rw [ih (fun y hy => hpre y (List.mem_cons_of_mem x hy)) (kept ++ [x])]
    simp

theorem innerScan_break (c p : Mention) (pre post : List Mention)
    (hpre : ∀ x ∈ pre, overlapB c x = false)
    (hp : overlapB c p = true)
    (hlen : ¬(p.aliasStr.length < c.aliasStr.length)) :
    ∀ kept, innerScan c kept (pre ++ p :: post) = (kept ++ pre ++ p :: post, true) := by
  induction pre with
  | nil =>
    intro kept
    rw [List.nil_append]
    unfold innerScan
    rw [if_pos hp, if_neg hlen]
    simp
  | cons x pre' ih =>
    intro kept
    rw [List.cons_append]
    unfold innerScan
    rw [if_neg (by rw [hpre x (List.mem_cons_self x pre')]; simp)]
    rw [ih (fun y hy => hpre y (List.mem_cons_of_mem x hy)) (kept ++ [x])]
    simp

theorem find?_decomp {α : Type} (l : List α) (pred : α → Bool) (x : α)
    (h : l.find? pred = some x) :
    ∃ pre post, l = pre ++ x :: post ∧ ∀ y ∈ pre, pred y = false := by
  induction l with
  | nil => cases h
  | cons a rest ih =>
    cases hpa : pred a with
    | true =>
      rw [List.find?_cons_of_pos _ hpa] at h
      refine ⟨[], rest, ?_, by simp⟩
      simpa using Option.some_inj.mp h
    | false =>
      rw [List.find?_cons_of_neg _ (by simp [hpa])] at h
      rcases ih h with ⟨pre, post, rfl, hpre⟩
      refine ⟨a :: pre, post, rfl, ?_⟩
      intro y hy
      rcases List.mem_cons.mp hy with rfl | hy'
      · exact hpa
      · exact hpre y hy'

theorem filterStep_eq_specStep (acc : List Mention) (c : Mention)
    (hpw : acc.Pairwise (fun a b => overlapB a b = false))
    (hstart : ∀ p ∈ acc, p.startPos ≤ c.startPos) :
    filterStep acc c = specStep acc c := by
  unfold filterStep specStep
  dsimp only
  cases hfind : acc.find? (fun p => overlapB c p) with
  | none =>
    have hall : ∀ p ∈ acc, overlapB c p = false := by
      intro p hp
      have hne := List.find?_eq_none.mp hfind p hp
      cases hb : overlapB c p
      · rfl
      · exact absurd hb hne
    rw [innerScan_no_overlap c acc hall []]
    simp
  | some p =>
    have hov : overlapB c p = true := List.find?_some hfind
    obtain ⟨pre, post, hacc, hpre⟩ := find?_decomp acc _ p hfind
    subst hacc
    have hppost : ∀ q ∈ post, overlapB p q = false :=
      (List.pairwise_cons.mp (List.pairwise_append.mp hpw).2.1).1
    have hpost : ∀ q ∈ post, overlapB c q = false := by
      intro q hq
      cases hb : overlapB c q
      · rfl
      · exfalso
        have h₁ := (overlapB_eq_true_iff c p).mp hov
        have h₂ := (overlapB_eq_true_iff c q).mp hb
        have h₃ := (overlapB_eq_false_iff p q).mp (hppost q hq)
        have h₄ := hstart p (by simp)
        have h₅ := hstart q (by simp [hq])
        omega
    by_cases hlen : p.aliasStr.length < c.aliasStr.length
    · show _ = if p.aliasStr.length < c.aliasStr.length then
        (pre ++ p :: post).erase p ++ [c] else pre ++ p :: post
      rw [if_pos hlen]
      rw [innerScan_replace c p pre post hpre hov hlen hpost []]
      have hnp : p ∉ pre := fun hc => by
        rw [hpre p hc] at hov
        cases hov
      rw [List.erase_append_right _ hnp, List.erase_cons_head]
      simp
    · show _ = if p.aliasStr.length < c.aliasStr.length then
        (pre ++ p :: post).erase p ++ [c] else pre ++ p :: post
      rw [if_neg hlen]
      rw [innerScan_break c p pre post hpre hov hlen []]
      simp

theorem specStep_mem (acc : List Mention) (c : Mention) :
    ∀ x ∈ specStep acc c, x ∈ acc ∨ x = c := by
  unfold specStep
  intro x hx
  cases hfind : acc.find? (fun p => overlapB c p) with
  | none =>
    rw [hfind] at hx
    rcases List.mem_append.mp hx with h | h
    · exact Or.inl h
    · simp only [List.mem_singleton] at h
      exact Or.inr h
  | some p =>
    rw [hfind] at hx
    replace hx : x ∈ (if p.aliasStr.length < c.aliasStr.length then
      acc.erase p ++ [c] else acc) := hx
    by_cases hlen : p.aliasStr.length < c.aliasStr.length
    · rw [if_pos hlen] at hx
      rcases List.mem_append.mp hx with h | h
      · exact Or.inl (List.Sublist.subset (List.erase_sublist p acc) h)
      · simp only [List.mem_singleton] at h
        exact Or.inr h
    · rw [if_neg hlen] at hx
      exact Or.inl hx

theorem specStep_pairwise (acc : List Mention) (c : Mention)
    (hpw : acc.Pairwise (fun a b => overlapB a b = false))
    (hstart : ∀ p ∈ acc, p.startPos ≤ c.startPos) :
    (specStep acc c).Pairwise (fun a b => overlapB a b = false) := by
  unfold specStep
  cases hfind : acc.find? (fun p => overlapB c p) with
  | none =>
    have hall : ∀ p ∈ acc, overlapB c p = false := by
      intro p hp
      have hne := List.find?_eq_none.mp hfind p hp
      cases hb : overlapB c p
      · rfl
      · exact absurd hb hne
    rw [List.pairwise_append]
    refine ⟨hpw, List.pairwise_singleton _ _, ?_⟩
    intro a ha b hb
    simp only [List.mem_singleton] at hb
    subst hb
    rw [overlapB_comm]
    exact hall a ha
  | some p =>
    have hov : overlapB c p = true := List.find?_some hfind
    obtain ⟨pre, post, hacc, hpre⟩ := find?_decomp acc _ p hfind
    subst hacc
    have hppost : ∀ q ∈ post, overlapB p q = false :=
      (List.pairwise_cons.mp (List.pairwise_append.mp hpw).2.1).1
    have hpost : ∀ q ∈ post, overlapB c q = false := by
      intro q hq
      cases hb : overlapB c q
      · rfl
      · exfalso
        have h₁ := (overlapB_eq_true_iff c p).mp hov
        have h₂ := (overlapB_eq_true_iff c q).mp hb
        have h₃ := (overlapB_eq_false_iff p q).mp (hppost q hq)
        have h₄ := hstart p (by simp)
        have h₅ := hstart q (by simp [hq])
        omega
    show (if p.aliasStr.length < c.aliasStr.length then
      (pre ++ p :: post).erase p ++ [c] else pre ++ p :: post).Pairwise
        (fun a b => overlapB a b = false)
    by_cases hlen : p.aliasStr.length < c.aliasStr.length
    · rw [if_pos hlen]
      have hnp : p ∉ pre := fun hc => by
        rw [hpre p hc] at hov
        cases hov
      rw [List.erase_append_right _ hnp, List.erase_cons_head]
      rw [List.pairwise_append]
      refine ⟨?_, List.pairwise_singleton _ _, ?_⟩
      · exact hpw.sublist (List.Sublist.append (List.Sublist.refl pre) (List.sublist_cons_self p post))
      · intro a ha b hb
        simp only [List.mem_singleton] at hb
        subst hb
        rw [overlapB_comm]
        rcases List.mem_append.mp ha with h | h
        · exact hpre a h
        · exact hpost a h
    · rw [if_neg hlen]
      exact hpw

theorem foldl_spec_eq_and_pairwise :
    ∀ (cands acc : List Mention),
      cands.Pairwise (fun a b => a.startPos ≤ b.startPos) →
      acc.Pairwise (fun a b => overlapB a b = false) →
      (∀ p ∈ acc, ∀ d ∈ cands, p.startPos ≤ d.startPos) →
      cands.foldl filterStep acc = cands.foldl specStep acc
        ∧ (cands.foldl specStep acc).Pairwise (fun a b => overlapB a b = false) := by
  intro cands
  induction cands with
  | nil => exact fun acc _ hpw _ => ⟨rfl, hpw⟩
  | cons c rest ih =>
    intro acc hsorted hpw hstart
    have hstartc : ∀ p ∈ acc, p.startPos ≤ c.startPos :=
      fun p hp => hstart p hp c (List.mem_cons_self c rest)
    have hstep : filterStep acc c = specStep acc c := filterStep_eq_specStep acc c hpw hstartc
    rw [List.foldl_cons, List.foldl_cons, hstep]
    refine ih (specStep acc c) (List.pairwise_cons.mp hsorted).2
      (specStep_pairwise acc c hpw hstartc) ?_
    intro p hp d hd
    rcases specStep_mem acc c p hp with h | h
    · exact hstart p h d (List.mem_cons_of_mem c hd)
    · subst h
      exact (List.pairwise_cons.mp hsorted).1 d hd

theorem sortByStart_sorted (l : List Mention) :
    (sortByStart l).Pairwise (fun a b => a.startPos ≤ b.startPos) := by
  unfold sortByStart
  have h := sortBy_pairwise (fun a b => Nat.ble a.startPos b.startPos)
    (fun a b => by
      rcases Nat.le_total a.startPos b.startPos with h | h
      · exact Or.inl (by simpa [Nat.ble_eq] using h)
      · exact Or.inr (by simpa [Nat.ble_eq] using h))
    (fun a b d hab hbd => by
      simp only [Nat.ble_eq] at hab hbd ⊢
      omega)
    l
  exact h.imp (fun {a b} hab => by simpa [Nat.ble_eq] using hab)

set_option maxRecDepth 8000 in
/-- C1: the overlap-resolution loop of `_find_all_items`, including
CPython's remove-during-iteration quirk, refines the spec's policy: on
any start-sorted candidate list — in particular on the sorted raw
mentions of any alias index over any text — it equals the §4.3
accept/replace-if-strictly-longer/discard pass and produces pairwise
non-overlapping mentions; and on the large catalog the overlapping
mentions of `"latte"`, `"pumpkin spice"` and `"pumpkin spice latte"` in
the text `"pumpkin spice latte"` yield exactly one cart item, bound to
the longest alias's item (COF002, the Pumpkin Spice Latte). -/
theorem C1_overlap_resolution :
    (∀ cands : List Mention, cands.Pairwise (fun a b => a.startPos ≤ b.startPos) →
      filterMentions cands = specResolve cands
        ∧ (filterMentions cands).Pairwise (fun a b => overlapB a b = false))
    ∧ (∀ (amap : List (List Char × MenuItem)) (text : List Char),
        filterMentions (sortByStart (rawMentions amap text)) =
            specResolve (sortByStart (rawMentions amap text))
          ∧ (filterMentions (sortByStart (rawMentions amap text))).Pairwise
              (fun a b => overlapB a b = false))
    ∧ (parse_order LARGE_MENU "pumpkin spice latte".data).items.map
        (fun it => (it.sku, it.name, it.quantity)) = [("COF002", "Pumpkin Spice Latte", 1)] := by
  have hmain : ∀ cands : List Mention, cands.Pairwise (fun a b => a.startPos ≤ b.startPos) →
      filterMentions cands = specResolve cands
        ∧ (filterMentions cands).Pairwise (fun a b => overlapB a b = false) := by
    intro cands hsorted
    have h := foldl_spec_eq_and_pairwise cands [] hsorted List.Pairwise.nil
      (by intro p hp; cases hp)
    refine ⟨h.1, ?_⟩
    unfold filterMentions
    rw [h.1]
    exact h.2
  refine ⟨hmain, ?_, ?_⟩
  · intro amap text
    exact hmain (sortByStart (rawMentions amap text)) (sortByStart_sorted _)
  · decide

/-- A concrete start-sorted candidate list (the two overlapping mentions
of `"pumpkin spice latte"` and `"latte"` at offsets 0 and 14) for the C1
witness. -/
def c1cands : List Mention :=
  [⟨0, 19, "pumpkin spice latte".data, LARGE_MENU.items.get ⟨10, by decide⟩⟩,
   ⟨14, 19, "latte".data, LARGE_MENU.items.get ⟨13, by decide⟩⟩]

/-- C1 witness: the refinement applied to the concrete sorted candidate
list, its sortedness hypothesis discharged by computation. -/
theorem C1_overlap_resolution_witness :
    c1cands.Pairwise (fun a b => a.startPos ≤ b.startPos)
      ∧ filterMentions c1cands = specResolve c1cands
      ∧ (filterMentions c1cands).Pairwise (fun a b => overlapB a b = false) :=
  ⟨by decide, (C1_overlap_resolution.1 c1cands (by decide)).1,
    (C1_overlap_resolution.1 c1cands (by decide)).2⟩
